import Mathlib

/-!
Shallow embedding of `src/mlpack/methods/xgboost/xgbtree.hpp` (class `XGBTree`).

Conventions of the embedding:
* `double` is modelled by `ℚ` (exact arithmetic; the claims under study are
  structural / exact-arithmetic claims, not rounding claims).
* `arma::mat data` (dimensions × samples) is modelled column-major: a value of
  type `List (List ℚ)` whose `j`-th entry is the feature column of sample `j`;
  `arma::swap_cols` swaps entries of that outer list.
* `arma::rowvec` is `List ℚ`.
* mutation is explicit state passing through the record `DState`.
* the split evaluators (`BestBinaryNumericSplit`, `AllCategoricalSplit`), the
  gain function (`MSEGain`), the dimension selector (`AllDimensionSelect`) and
  the feature-importance sink are not part of the sources under `src/`; the
  tree code is therefore parameterised over them (`Splitter`, `GainFn`,
  `FeatureImportance`), and concrete instances modelled from the spec are
  provided further below for concrete runs.
-/

namespace XGB

/-- `data::Datatype` of mlpack: `numeric = 0`, `categorical = 1`. -/
inductive Datatype where
  | numeric
  | categorical
deriving DecidableEq, Repr

/-- The `(size_t) datasetInfo.Type(bestDim)` cast used at
`dimensionType = (size_t) datasetInfo.Type(bestDim)`. -/
def Datatype.toNat : Datatype → Nat
  | .numeric => 0
  | .categorical => 1

/-- The anonymous union of `XGBTree`: one storage slot that holds either the
leaf `prediction` (a `double`) or the internal-node `splitDimension` (a
`size_t`).  A write to one member is modelled by storing the corresponding
constructor; the bit-level type punning of a mismatched read is not modelled
at the bit level — a read returns the tagged slot. -/
inductive Slot where
  | pred (p : ℚ)
  | dim (d : Nat)
deriving DecidableEq, Repr

/-- The `XGBTree` node: children vector, the prediction/splitDimension union
slot, `dimensionType`, `splitInfo` (an `arma::vec`), and the cached
`nodeGain`. -/
inductive XGBTree where
  | mk (children : List XGBTree) (slot : Slot) (dimensionType : Nat)
       (splitInfo : List ℚ) (nodeGain : ℚ)

def XGBTree.children : XGBTree → List XGBTree
  | .mk c _ _ _ _ => c

def XGBTree.slot : XGBTree → Slot
  | .mk _ s _ _ _ => s

def XGBTree.dimensionType : XGBTree → Nat
  | .mk _ _ t _ _ => t

def XGBTree.splitInfo : XGBTree → List ℚ
  | .mk _ _ _ i _ => i

def XGBTree.nodeGain : XGBTree → ℚ
  | .mk _ _ _ _ g => g

/-- The mutable training state threaded through `Train`: the feature matrix
(column-major by sample), the response row vector and the weight row vector. -/
structure DState where
  data : List (List ℚ)
  resp : List ℚ
  weights : List ℚ
deriving DecidableEq, Repr

/-- `swap_cols i j` on a list: exchange the entries at positions `i` and `j`
(both reads are performed on the original list).  In-range behaviour matches
Armadillo; out-of-range accesses are undefined in the source. -/
def swapCols [Inhabited α] (l : List α) (i j : Nat) : List α :=
  (l.set i (l.getD j default)).set j (l.getD i default)

/-- Interface of a split evaluator as used by `XGBTree::Train`:
`splitIfBetter` returns `none` for the `DBL_MAX` "did not split" sentinel and
otherwise the achieved gain together with the written `splitInfo`;
`numChildren` and `calcDir` read that `splitInfo`.  The `numMappings`
argument models `datasetInfo.NumMappings(i)` (ignored by the numeric
evaluator, which does not receive it in the source). -/
structure Splitter where
  splitIfBetter : (bestGain : ℚ) → (dimRow : List ℚ) → (responses : List ℚ) →
      (weights : List ℚ) → (numMappings : Nat) → (minimumLeafSize : Nat) →
      (minimumGainSplit : ℚ) → Option (ℚ × List ℚ)
  numChildren : List ℚ → Nat
  calcDir : ℚ → List ℚ → Nat

/-- Interface of the gain function (`MSEGain` in the source): `evaluate` is
`Evaluate<false>` and `outputLeafValue` is `OutputLeafValue<false>`. -/
structure GainFn where
  evaluate : (responses : List ℚ) → (weights : List ℚ) → ℚ
  outputLeafValue : (responses : List ℚ) → (weights : List ℚ) → ℚ

/-- `data::DatasetInfo`: dimensionality, per-dimension type and per-dimension
number of categorical mappings. -/
structure DatasetInfo where
  dims : Nat
  type : Nat → Datatype
  numMappings : Nat → Nat

/-- Modelled from the spec: the Feature Importance Sink
(`feature_importance.hpp` is not among the sources under `src/`).  It keeps a
per-dimension frequency count and a per-dimension cumulative cover. -/
structure FeatureImportance where
  featureFrequency : Nat → Nat
  featureCover : Nat → ℚ

/-- Modelled from the spec: `featImp->increaseFeatureFrequency(dim, amt)`. -/
def increaseFeatureFrequency (f : FeatureImportance) (dim amt : Nat) :
    FeatureImportance where
  featureFrequency := fun d =>
    if d = dim then f.featureFrequency d + amt else f.featureFrequency d
  featureCover := f.featureCover

/-- Modelled from the spec: `featImp->increaseFeatureCover(dim, amt)`. -/
def increaseFeatureCover (f : FeatureImportance) (dim : Nat) (amt : ℚ) :
    FeatureImportance where
  featureFrequency := f.featureFrequency
  featureCover := fun d =>
    if d = dim then f.featureCover d + amt else f.featureCover d

/-- The responses of the range `[begin, begin+count)`:
`responses.cols(begin, begin + count - 1)`. -/
def respRange (st : DState) (b c : Nat) : List ℚ :=
  (List.range c).map (fun k => st.resp.getD (b + k) 0)

/-- Row `i` of `data.cols(begin, begin + count - 1)`. -/
def dimRow (st : DState) (b c i : Nat) : List ℚ :=
  (List.range c).map (fun k => (st.data.getD (b + k) []).getD i 0)

/-- The dimension loop of `Train` (lines 140–182 of the source), specialised
to `AllDimensionSelect` iteration (modelled from the spec: the selector
enumerates all dimensions in order; its source is not under `src/`).  The
running state is `(bestGain, bestDim, splitInfo)`; a successful
`SplitIfBetter` updates all three, and the loop breaks early once
`bestGain ≥ 0`. -/
def dimScan (ns cs : Splitter) (info : DatasetInfo) (st : DState)
    (b c : Nat) (mls : Nat) (mgs : ℚ) :
    List Nat → ℚ × Nat × List ℚ → ℚ × Nat × List ℚ
  | [], acc => acc
  | i :: rest, (bg, bd, si) =>
    let res :=
      match info.type i with
      | .categorical =>
          cs.splitIfBetter bg (dimRow st b c i) (respRange st b c) st.weights
            (info.numMappings i) mls mgs
      | .numeric =>
          ns.splitIfBetter bg (dimRow st b c i) (respRange st b c) st.weights
            (info.numMappings i) mls mgs
    match res with
    | none => dimScan ns cs info st b c mls mgs rest (bg, bd, si)
    | some (g, si') =>
        if 0 ≤ g then (g, i, si')
        else dimScan ns cs info st b c mls mgs rest (g, i, si')

/-- The body of the per-child partition loop
(`for (size_t j = currentChildBegin; j < begin + count; ++j)`, lines
232–241): fuel `n` counts the remaining values of `j`.  On a match the
assignment row is swapped at relative positions `(cur - b, j - b)` while the
feature matrix and the response vector are swapped at absolute positions
`(cur, j)`; the weight vector is not touched. -/
def innerPassGo (b i : Nat) :
    Nat → Nat → List Nat → DState → Nat → List Nat × DState × Nat
  | 0, _, asg, st, cur => (asg, st, cur)
  | n + 1, j, asg, st, cur =>
    if asg.getD (j - b) 0 = i then
      innerPassGo b i n (j + 1) (swapCols asg (cur - b) (j - b))
        { st with data := swapCols st.data cur j,
                  resp := swapCols st.resp cur j }
        (cur + 1)
    else
      innerPassGo b i n (j + 1) asg st cur

/-- One pass of the partition loop for child `i`, scanning
`j = currentChildBegin, …, begin + count - 1` where `currentChildBegin` is the
current cursor. -/
def innerPass (b c i : Nat) (asg : List Nat) (st : DState) (cur : Nat) :
    List Nat × DState × Nat :=
  innerPassGo b i (b + c - cur) cur asg st cur

/-- The state of the `for (size_t i = 0; i < numChildren; ++i)` loop of
`Train` (lines 229–254): the child-assignment row, the data state, the
running column cursor `currentCol`, the importance sink, the accumulated
`bestGain` and the children built so far. -/
structure LoopSt where
  asg : List Nat
  st : DState
  cur : Nat
  fi : Option FeatureImportance
  acc : ℚ
  children : List XGBTree

/-- The result of one `Train` call: the node that was built, the data state
after all in-place reordering, the importance sink and the returned
`double` (`-bestGain`). -/
structure TrainResult where
  tree : XGBTree
  st : DState
  fi : Option FeatureImportance
  ret : ℚ

/-- The per-child loop of `Train` (lines 229–254), parameterised over the
recursive call `trainChild` (which receives the child state, the child range
`[currentChildBegin, currentCol)` and the sink).  Each step partitions the
next child's columns into place, trains the child on its range, accumulates
`bestGain += childCounts[i]/count * (-childGain)` and appends the child. -/
def splitLoop (trainChild : DState → Nat → Nat → Option FeatureImportance → TrainResult)
    (b c : Nat) (childCounts : List Nat) :
    List Nat → LoopSt → LoopSt
  | [], s => s
  | i :: rest, s =>
    let ccb := s.cur
    let r1 := innerPass b c i s.asg s.st s.cur
    let child := trainChild r1.2.1 ccb (r1.2.2 - ccb) s.fi
    splitLoop trainChild b c childCounts rest
      { asg := r1.1
        st := child.st
        cur := r1.2.2
        fi := child.fi
        acc := s.acc + (childCounts.getD i 0 : ℚ) / (c : ℚ) * (-child.ret)
        children := s.children ++ [child.tree] }

/-- The per-sample child assignments
(`childAssignments[j - begin] = …CalculateDirection(data(bestDim, j), …)`). -/
def childAssign (sp : Splitter) (st : DState) (b c bestDim : Nat)
    (si : List ℚ) : List Nat :=
  (List.range c).map
    (fun k => sp.calcDir ((st.data.getD (b + k) []).getD bestDim 0) si)

/-- `XGBTree::Train` (lines 111–266), by recursion on `maximumDepth`.
`maximumDepth = 0` violates the caller contract (spec §7: it must be rejected
or clamped before invocation; in the source `maxDepth - 1` underflows
`size_t`); the embedding maps it to the leaf path.  For `maxDepth ≥ 1` the
translation is exact: the dimension scan runs iff `maximumDepth != 1`, a
split is committed iff `bestDim != datasetInfo.Dimensionality()`, and the
children are trained with `maximumDepth - 1`. -/
def Train (ns cs : Splitter) (info : DatasetInfo) (gainFn : GainFn)
    (mls : Nat) (mgs : ℚ) :
    Nat → DState → Nat → Nat → Option FeatureImportance → TrainResult
  | 0, st, b, c, fi =>
    ⟨.mk [] (.pred (gainFn.outputLeafValue (respRange st b c) st.weights)) 0 []
        (gainFn.evaluate (respRange st b c) st.weights), st, fi,
      -(gainFn.evaluate (respRange st b c) st.weights)⟩
  | d + 1, st, b, c, fi =>
    let baseGain := gainFn.evaluate (respRange st b c) st.weights
    let scan :=
      if d ≠ 0 then
        dimScan ns cs info st b c mls mgs (List.range info.dims)
          (baseGain, info.dims, [])
      else (baseGain, info.dims, [])
    let bestGain := scan.1
    let bestDim := scan.2.1
    let si := scan.2.2
    if bestDim ≠ info.dims then
      let fi' := fi.map (fun f =>
        increaseFeatureCover (increaseFeatureFrequency f bestDim 1) bestDim
          bestGain)
      let sp := match info.type bestDim with
        | .categorical => cs
        | .numeric => ns
      let numCh := sp.numChildren si
      let asg := childAssign sp st b c bestDim si
      let childCounts := (List.range numCh).map (fun i => asg.countP (· == i))
      let res := splitLoop (fun st' b' c' fi'' => Train ns cs info gainFn mls mgs d st' b' c' fi'')
        b c childCounts (List.range numCh) ⟨asg, st, b, fi', 0, []⟩
      ⟨.mk res.children (.dim bestDim) (info.type bestDim).toNat si res.acc,
        res.st, res.fi, -res.acc⟩
    else
      ⟨.mk [] (.pred (gainFn.outputLeafValue (respRange st b c) st.weights)) 0
          si bestGain, st, fi, -bestGain⟩

/-- Modelled from the spec: `MSEGain` (§4.1; `mse_gain.hpp` is not among the
sources under `src/`).  `evaluate` returns the negative impurity of the
response subset (the negated mean squared deviation from the subset mean) and
`outputLeafValue` returns the subset mean, the squared-error minimiser.  Both
ignore the weight vector (`Evaluate<false>` / `OutputLeafValue<false>`). -/
def mseGain : GainFn where
  evaluate := fun resp _ =>
    if resp.length = 0 then 0
    else
      -(((resp.map (fun y => (y - resp.sum / (resp.length : ℚ)) ^ 2)).sum) /
        (resp.length : ℚ))
  outputLeafValue := fun resp _ =>
    if resp.length = 0 then 0 else resp.sum / (resp.length : ℚ)

/-- Modelled from the spec: `AllCategoricalSplit<MSEGain>::SplitIfBetter<false>`
(§4.3; `all_categorical_split.hpp` is not among the sources under `src/`).
The single candidate split sends every sample to the child matching its
category code; it is rejected when any category has fewer than
`minimumLeafSize` samples or when the weighted child gain does not improve on
`bestGain` by more than `minimumGainSplit`.  On success the number of
children (the cardinality) is written into `splitInfo`; `NumChildren` reads
it back and `CalculateDirection` returns the category code itself. -/
def allCategoricalSplit (g : GainFn) : Splitter where
  splitIfBetter := fun bestGain dimRow resp weights numMappings mls mgs =>
    let counts := (List.range numMappings).map
      (fun cat => dimRow.countP (fun v => v == (cat : ℚ)))
    if counts.any (fun cnt => cnt < mls) then none
    else
      let splitGain := ((List.range numMappings).map (fun cat =>
        ((counts.getD cat 0 : ℚ) / (dimRow.length : ℚ)) *
          g.evaluate ((dimRow.zip resp).filterMap
            (fun p => if p.1 == (cat : ℚ) then some p.2 else none))
            weights)).sum
      if bestGain + mgs < splitGain then some (splitGain, [(numMappings : ℚ)])
      else none
  numChildren := fun si => (si.getD 0 0).num.toNat
  calcDir := fun v _ => v.num.toNat

/-- `XGBTree::CalculateDirection` (lines 55–63).  The union read of
`splitDimension` on a node whose slot holds a prediction is type punning in
the source; it is modelled as reading `0`. -/
def CalculateDirection (ns cs : Splitter) (t : XGBTree) (point : List ℚ) :
    Nat :=
  let sd := match t.slot with
    | .dim d => d
    | .pred _ => 0
  if t.dimensionType = Datatype.categorical.toNat then
    cs.calcDir (point.getD sd 0) t.splitInfo
  else
    ns.calcDir (point.getD sd 0) t.splitInfo

theorem sizeOf_lt_of_mem_children {c : XGBTree} {l : List XGBTree} {s : Slot}
    {dt : Nat} {si : List ℚ} {g : ℚ} (h : c ∈ l) :
    sizeOf c < sizeOf (XGBTree.mk l s dt si g) := by
  have := List.sizeOf_lt_of_mem h
  simp only [XGBTree.mk.sizeOf_spec]
  omega

/-- `XGBTree::Predict` (lines 268–277).  A node with no children returns the
cached union slot; otherwise the point is routed to
`children[CalculateDirection(point)]`.  An out-of-range direction is
undefined behaviour in the source; the embedding routes it to the first
child. -/
def Predict (ns cs : Splitter) (t : XGBTree) (point : List ℚ) : Slot :=
  match h : t.children with
  | [] => t.slot
  | c :: rest =>
    Predict ns cs ((c :: rest).getD (CalculateDirection ns cs t point) c) point
termination_by sizeOf t
decreasing_by
  have hmem : (c :: rest).getD (CalculateDirection ns cs t point) c ∈ c :: rest := by
    rcases Nat.lt_or_ge (CalculateDirection ns cs t point) (c :: rest).length with hlt | hge
    · rw [List.getD_eq_getElem?_getD, List.getElem?_eq_getElem hlt]
      exact List.getElem_mem hlt
    · rw [List.getD_eq_getElem?_getD, List.getElem?_eq_none hge]
      exact List.mem_cons_self c rest
  cases t with
  | mk l s dt si g =>
    have : c :: rest = l := by simpa [XGBTree.children] using h.symm
    subst this
    exact sizeOf_lt_of_mem_children hmem

mutual

/-- `XGBTree::Prune` (lines 279–303): each child is pruned recursively and
detached when its recursive call returns `true` (the erase/`i--` loop keeps
exactly the pruned children whose flag is `false`, in order); the node then
reports `nodeGain < threshold`. -/
def Prune (t : XGBTree) (threshold : ℚ) : XGBTree × Bool :=
  match t with
  | .mk l s dt si g =>
    (.mk (pruneKids l threshold) s dt si g, decide (g < threshold))
termination_by sizeOf t

/-- The child loop of `Prune`: each child is pruned in place and erased when
its call returns `true`. -/
def pruneKids (l : List XGBTree) (threshold : ℚ) : List XGBTree :=
  match l with
  | [] => []
  | t :: ts =>
    if (Prune t threshold).2 then pruneKids ts threshold
    else (Prune t threshold).1 :: pruneKids ts threshold
termination_by sizeOf l

end

mutual

/-- `p` holds of the cached `nodeGain` of every node of the tree. -/
def allGainsB (p : ℚ → Bool) (t : XGBTree) : Bool :=
  match t with
  | .mk l _ _ _ g => p g && allGainsList p l

/-- `p` holds of every cached `nodeGain` in the forest. -/
def allGainsList (p : ℚ → Bool) (l : List XGBTree) : Bool :=
  match l with
  | [] => true
  | t :: ts => allGainsB p t && allGainsList p ts

end

/-! ### Basic lemmas about `swapCols` -/

theorem swapCols_length [Inhabited α] (l : List α) (i j : Nat) :
    (swapCols l i j).length = l.length := by
  simp [swapCols]

theorem getElem_swapCols [Inhabited α] (l : List α) (i j k : Nat)
    (hi : i < l.length) (hj : j < l.length) (hk : k < l.length)
    (hk' : k < (swapCols l i j).length) :
    (swapCols l i j)[k] =
      if k = j then l[i] else if k = i then l[j] else l[k] := by
  have e1 : l.getD j default = l[j] := List.getD_eq_getElem l default hj
  have e2 : l.getD i default = l[i] := List.getD_eq_getElem l default hi
  simp only [swapCols] at hk' ⊢
  rw [List.getElem_set, List.getElem_set]
  simp only [e1, e2]
  rcases eq_or_ne k j with h1 | h1
  · subst h1
    simp
  · rcases eq_or_ne k i with h2 | h2
    · subst h2
      simp [h1, Ne.symm h1]
    · simp [h1, h2, Ne.symm h1, Ne.symm h2]

theorem getD_swapCols [Inhabited α] (l : List α) (i j k : Nat) (d : α)
    (hi : i < l.length) (hj : j < l.length) :
    (swapCols l i j).getD k d =
      if k = j then l.getD i d else if k = i then l.getD j d
      else l.getD k d := by
  by_cases hk : k < l.length
  · rw [List.getD_eq_getElem _ d (by rw [swapCols_length]; exact hk),
      getElem_swapCols l i j k hi hj hk
        (by rw [swapCols_length]; exact hk)]
    rcases eq_or_ne k j with h1 | h1
    · rw [if_pos h1, if_pos h1, List.getD_eq_getElem _ d hi]
    · rcases eq_or_ne k i with h2 | h2
      · rw [if_neg h1, if_neg h1, if_pos h2, if_pos h2,
          List.getD_eq_getElem _ d hj]
      · rw [if_neg h1, if_neg h1, if_neg h2, if_neg h2,
          List.getD_eq_getElem _ d hk]
  · have h1 : k ≠ j := by omega
    have h2 : k ≠ i := by omega
    rw [List.getD_eq_default _ d (by rw [swapCols_length]; omega),
      if_neg h1, if_neg h2, List.getD_eq_default _ d (by omega)]

theorem swapCols_eq_map_range [Inhabited α] (l : List α) (i j : Nat)
    (hi : i < l.length) (hj : j < l.length) :
    swapCols l i j =
      (List.range l.length).map (fun k => l.getD (Equiv.swap i j k) default) := by
  apply List.ext_getElem
  · simp [swapCols_length]
  · intro k h1 h2
    have hkl : k < l.length := by
      have := h1
      rwa [swapCols_length] at this
    rw [getElem_swapCols l i j k hi hj hkl h1]
    simp only [List.getElem_map, List.getElem_range]
    by_cases h3 : k = j
    · rw [if_pos h3, h3, Equiv.swap_apply_right, List.getD_eq_getElem _ _ hi]
    · by_cases h4 : k = i
      · rw [if_neg h3, if_pos h4, h4, Equiv.swap_apply_left,
          List.getD_eq_getElem _ _ hj]
      · rw [if_neg h3, if_neg h4, Equiv.swap_apply_of_ne_of_ne h4 h3,
          List.getD_eq_getElem _ _ hkl]

theorem map_swap_range_perm (i j c : Nat) (hi : i < c) (hj : j < c) :
    ((List.range c).map (Equiv.swap i j)).Perm (List.range c) := by
  have hnd : ((List.range c).map (Equiv.swap i j)).Nodup :=
    (List.nodup_range c).map (Equiv.injective _)
  rw [← Multiset.coe_eq_coe]
  rw [Multiset.Nodup.ext (Multiset.coe_nodup.mpr hnd)
    (Multiset.coe_nodup.mpr (List.nodup_range c))]
  intro a
  simp only [Multiset.mem_coe, List.mem_map, List.mem_range]
  constructor
  · rintro ⟨k, hk, rfl⟩
    by_cases h1 : k = i
    · simpa [h1, Equiv.swap_apply_left] using hj
    · by_cases h2 : k = j
      · simpa [h2, Equiv.swap_apply_right] using hi
      · rwa [Equiv.swap_apply_of_ne_of_ne h1 h2]
  · intro ha
    refine ⟨Equiv.swap i j a, ?_, Equiv.swap_apply_self i j a⟩
    by_cases h1 : a = i
    · simpa [h1, Equiv.swap_apply_left] using hj
    · by_cases h2 : a = j
      · simpa [h2, Equiv.swap_apply_right] using hi
      · rwa [Equiv.swap_apply_of_ne_of_ne h1 h2]

theorem self_eq_map_range_getD [Inhabited α] (l : List α) :
    l = (List.range l.length).map (fun k => l.getD k default) := by
  apply List.ext_getElem
  · simp
  · intro k h1 h2
    simp only [List.getElem_map, List.getElem_range]
    rw [List.getD_eq_getElem _ _ h1]

theorem swapCols_perm [Inhabited α] (l : List α) (i j : Nat)
    (hi : i < l.length) (hj : j < l.length) :
    (swapCols l i j).Perm l := by
  rw [swapCols_eq_map_range l i j hi hj]
  have h1 : (List.range l.length).map (fun k => l.getD (Equiv.swap i j k) default)
      = ((List.range l.length).map (Equiv.swap i j)).map (fun k => l.getD k default) := by
    simp [List.map_map, Function.comp]
  rw [h1]
  have h2 := (map_swap_range_perm i j l.length hi hj).map (fun k => l.getD k default)
  exact h2.trans (by rw [← self_eq_map_range_getD])

theorem swapCols_multiset [Inhabited α] (l : List α) (i j : Nat)
    (hi : i < l.length) (hj : j < l.length) :
    ((swapCols l i j : List α) : Multiset α) = (l : Multiset α) := by
  rw [Multiset.coe_eq_coe]
  exact swapCols_perm l i j hi hj

theorem ext_getD {l₁ l₂ : List α} (d : α) (h : l₁.length = l₂.length)
    (he : ∀ k, k < l₁.length → l₁.getD k d = l₂.getD k d) : l₁ = l₂ := by
  apply List.ext_getElem h
  intro k h1 h2
  have h3 := he k h1
  rwa [List.getD_eq_getElem _ _ h1, List.getD_eq_getElem _ _ h2] at h3

theorem drop_swapCols_high [Inhabited α] (l : List α) (p q m : Nat)
    (hp : p < m) (hq : q < m) : (swapCols l p q).drop m = l.drop m := by
  by_cases hm : m ≤ l.length
  · by_cases hpl : p < l.length
    · by_cases hql : q < l.length
      · apply List.ext_getElem (by simp [swapCols_length])
        intro k h1 h2
        rw [List.getElem_drop, List.getElem_drop]
        have hmk : m + k < l.length := by
          have := h2
          simp only [List.length_drop] at this
          omega
        rw [getElem_swapCols l p q (m + k) hpl hql hmk
          (by rw [swapCols_length]; exact hmk)]
        rw [if_neg (by omega), if_neg (by omega)]
      · omega
    · omega
  · have h1 : (swapCols l p q).length ≤ m := by rw [swapCols_length]; omega
    rw [List.drop_eq_nil_of_le h1, List.drop_eq_nil_of_le (by omega)]

theorem take_swapCols_low [Inhabited α] (l : List α) (p q m : Nat)
    (hp : m ≤ p) (hq : m ≤ q) (hpl : p < l.length) (hql : q < l.length) :
    (swapCols l p q).take m = l.take m := by
  apply List.ext_getElem (by simp [swapCols_length])
  intro k h1 h2
  have hkm : k < m := by
    have h3 := h1
    simp only [List.length_take, swapCols_length] at h3
    omega
  have hkl : k < l.length := by omega
  rw [List.getElem_take, List.getElem_take,
    getElem_swapCols l p q k hpl hql hkl (by rw [swapCols_length]; exact hkl),
    if_neg (by omega), if_neg (by omega)]

theorem drop_swapCols_multiset [Inhabited α] (l : List α) (p q m : Nat)
    (hm : m ≤ p) (hm2 : m ≤ q) (hpl : p < l.length) (hql : q < l.length) :
    (((swapCols l p q).drop m : List α) : Multiset α) =
      ((l.drop m : List α) : Multiset α) := by
  have h1 : ((swapCols l p q : List α) : Multiset α) = (l : Multiset α) :=
    swapCols_multiset l p q hpl hql
  have h2 : (swapCols l p q).take m ++ (swapCols l p q).drop m = swapCols l p q :=
    List.take_append_drop m _
  have h3 : l.take m ++ l.drop m = l := List.take_append_drop m l
  have h4 : ((swapCols l p q).take m : Multiset α) + ((swapCols l p q).drop m : Multiset α)
      = (l.take m : Multiset α) + (l.drop m : Multiset α) := by
    have e1 : (((swapCols l p q).take m ++ (swapCols l p q).drop m : List α) : Multiset α)
        = ((l.take m ++ l.drop m : List α) : Multiset α) := by
      rw [h2, h3]
      exact h1
    simpa using e1
  rw [take_swapCols_low l p q m hm hm2 hpl hql] at h4
  exact add_left_cancel h4

/-! ### The content of a training range

`contentList asg st b c` is the list of per-sample items of the range
`[b, b + c)`: the child assignment, the feature column and the response of
each sample.  The partition loop acts on all three in lockstep. -/

abbrev Item : Type := Nat × List ℚ × ℚ

def dfltItem : Item := (0, [], 0)

def contentList (asg : List Nat) (st : DState) (b c : Nat) : List Item :=
  (List.range c).map (fun k =>
    (asg.getD k 0, st.data.getD (b + k) [], st.resp.getD (b + k) 0))

theorem contentList_length (asg : List Nat) (st : DState) (b c : Nat) :
    (contentList asg st b c).length = c := by
  simp [contentList]

theorem contentList_getD (asg : List Nat) (st : DState) (b c k : Nat)
    (hk : k < c) :
    (contentList asg st b c).getD k dfltItem =
      (asg.getD k 0, st.data.getD (b + k) [], st.resp.getD (b + k) 0) := by
  rw [List.getD_eq_getElem _ _ (by simpa [contentList_length] using hk)]
  simp [contentList]

theorem contentList_getElemD (asg : List Nat) (st : DState) (b c k : Nat)
    (hk : k < c) :
    (contentList asg st b c)[k]?.getD dfltItem =
      (asg[k]?.getD 0, st.data[b + k]?.getD [], st.resp[b + k]?.getD 0) := by
  rw [← List.getD_eq_getElem?_getD, ← List.getD_eq_getElem?_getD,
    ← List.getD_eq_getElem?_getD, ← List.getD_eq_getElem?_getD]
  exact contentList_getD asg st b c k hk

theorem contentList_swap (asg : List Nat) (st : DState) (b c p q : Nat)
    (ha : asg.length = c) (hd : b + c ≤ st.data.length)
    (hr : b + c ≤ st.resp.length) (hp : p < c) (hq : q < c) :
    contentList (swapCols asg p q)
      ⟨swapCols st.data (b + p) (b + q), swapCols st.resp (b + p) (b + q),
        st.weights⟩ b c
      = swapCols (contentList asg st b c) p q := by
  have hpa : p < asg.length := by omega
  have hqa : q < asg.length := by omega
  have hpd : b + p < st.data.length := by omega
  have hqd : b + q < st.data.length := by omega
  have hpr : b + p < st.resp.length := by omega
  have hqr : b + q < st.resp.length := by omega
  have hpc : p < (contentList asg st b c).length := by
    rw [contentList_length]; exact hp
  have hqc : q < (contentList asg st b c).length := by
    rw [contentList_length]; exact hq
  apply ext_getD dfltItem
  · simp [contentList_length, swapCols_length]
  · intro k hkl
    have hk : k < c := by simpa [contentList_length] using hkl
    rw [contentList_getD _ _ _ _ _ hk]
    rw [getD_swapCols (contentList asg st b c) p q k dfltItem hpc hqc]
    simp only
    rw [getD_swapCols asg p q k 0 hpa hqa,
      getD_swapCols st.data (b + p) (b + q) (b + k) [] hpd hqd,
      getD_swapCols st.resp (b + p) (b + q) (b + k) 0 hpr hqr]
    rcases eq_or_ne k q with h1 | h1
    · subst h1
      simp [contentList_getD asg st b c p hp,
        contentList_getElemD asg st b c p hp]
    · rcases eq_or_ne k p with h2 | h2
      · subst h2
        simp [h1, (show ¬ (b + k = b + q) by omega),
          contentList_getD asg st b c q hq,
          contentList_getElemD asg st b c q hq]
      · simp [h1, h2, (show ¬ (b + k = b + q) by omega),
          (show ¬ (b + k = b + p) by omega),
          contentList_getD asg st b c k hk,
          contentList_getElemD asg st b c k hk]

/-- Number of items of `L` assigned to child `i`. -/
def passCountP (L : List Item) (i : Nat) : Nat :=
  L.countP (fun x => x.1 == i)

/-- What one partition pass (`innerPassGo`) guarantees, relative to the
initial assignment row `asg` and state `st`: lengths and the weight vector
are untouched, data outside `[b, b+c)` is untouched, the cursor ends at
`b + pf`, the content below the initial cursor is untouched, the content
between the initial and final cursor is assigned to child `i`, the range
content is permuted, and the content beyond the final cursor is (as a
multiset) the old content from the cursor on with child `i` removed. -/
structure PassSpec (b c i : Nat) (asg : List Nat) (st : DState) (p pf : Nat)
    (R : List Nat × DState × Nat) : Prop where
  len_asg : R.1.length = c
  len_data : R.2.1.data.length = st.data.length
  len_resp : R.2.1.resp.length = st.resp.length
  weights_eq : R.2.1.weights = st.weights
  outside : ∀ k, k < b ∨ b + c ≤ k →
    R.2.1.data.getD k [] = st.data.getD k [] ∧
    R.2.1.resp.getD k 0 = st.resp.getD k 0
  cur_eq : R.2.2 = b + pf
  prefix_eq : ∀ k, k < p →
    (contentList R.1 R.2.1 b c).getD k dfltItem =
      (contentList asg st b c).getD k dfltItem
  seg_key : ∀ k, p ≤ k → k < pf →
    ((contentList R.1 R.2.1 b c).getD k dfltItem).1 = i
  perm : ((contentList R.1 R.2.1 b c : List Item) : Multiset Item) =
    ((contentList asg st b c : List Item) : Multiset Item)
  suffix_eq : (((contentList R.1 R.2.1 b c).drop pf : List Item) : Multiset Item) =
    Multiset.filter (fun x => x.1 ≠ i)
      (((contentList asg st b c).drop p : List Item) : Multiset Item)

theorem innerPassGo_spec (b c i : Nat) :
    ∀ (n q p : Nat) (asg : List Nat) (st : DState),
      asg.length = c → b + c ≤ st.data.length → b + c ≤ st.resp.length →
      p ≤ q → q + n = c →
      (∀ k, p ≤ k → k < q →
        ((contentList asg st b c).getD k dfltItem).1 ≠ i) →
      PassSpec b c i asg st p
        (p + passCountP ((contentList asg st b c).drop q) i)
        (innerPassGo b i n (b + q) asg st (b + p)) := by
  intro n
  induction n with
  | zero =>
    intro q p asg st ha hd hr hpq hqn hblock
    have hq : q = c := by omega
    have hdrop : (contentList asg st b c).drop q = [] :=
      List.drop_eq_nil_of_le (by rw [contentList_length]; omega)
    rw [hdrop]
    simp only [innerPassGo, passCountP, List.countP_nil, Nat.add_zero]
    refine ⟨ha, rfl, rfl, rfl, fun k _ => ⟨rfl, rfl⟩, rfl, fun k _ => rfl,
      fun k h1 h2 => absurd h1 (by omega), rfl, ?_⟩
    symm
    rw [Multiset.filter_eq_self]
    intro x hx
    rw [Multiset.mem_coe, List.mem_iff_getElem] at hx
    obtain ⟨m, hm, hx⟩ := hx
    have hm2 : p + m < c := by
      have := hm
      simp only [List.length_drop, contentList_length] at this
      omega
    have e1 : ((contentList asg st b c).drop p)[m] =
        (contentList asg st b c).getD (p + m) dfltItem := by
      rw [List.getElem_drop, List.getD_eq_getElem _ _ (by
        rw [contentList_length]; exact hm2)]
    have := hblock (p + m) (by omega) (by omega)
    rw [← hx, e1]
    exact this
  | succ n ih =>
    intro q p asg st ha hd hr hpq hqn hblock
    have hqc : q < c := by omega
    have hpc : p < c := by omega
    have hcl : (contentList asg st b c).length = c := contentList_length _ _ _ _
    have hqcl : q < (contentList asg st b c).length := by omega
    have hpcl : p < (contentList asg st b c).length := by omega
    have hkey : ((contentList asg st b c).getD q dfltItem).1 = asg.getD q 0 := by
      rw [contentList_getD _ _ _ _ _ hqc]
    have hcons : (contentList asg st b c).drop q =
        (contentList asg st b c)[q] :: (contentList asg st b c).drop (q + 1) :=
      List.drop_eq_getElem_cons hqcl
    have hgetq : (contentList asg st b c)[q] =
        (contentList asg st b c).getD q dfltItem :=
      (List.getD_eq_getElem _ _ hqcl).symm
    simp only [innerPassGo, Nat.add_sub_cancel_left]
    by_cases hcond : asg.getD q 0 = i
    · rw [if_pos hcond]
      -- the swapped state
      have hswap : contentList (swapCols asg p q)
          ⟨swapCols st.data (b + p) (b + q), swapCols st.resp (b + p) (b + q),
            st.weights⟩ b c
          = swapCols (contentList asg st b c) p q :=
        contentList_swap asg st b c p q ha hd hr hpc hqc
      have ha1 : (swapCols asg p q).length = c := by
        rw [swapCols_length]; exact ha
      have hd1 : b + c ≤ (swapCols st.data (b + p) (b + q)).length := by
        rw [swapCols_length]; exact hd
      have hr1 : b + c ≤ (swapCols st.resp (b + p) (b + q)).length := by
        rw [swapCols_length]; exact hr
      have hblock1 : ∀ k, p + 1 ≤ k → k < q + 1 →
          ((contentList (swapCols asg p q)
            ⟨swapCols st.data (b + p) (b + q), swapCols st.resp (b + p) (b + q),
              st.weights⟩ b c).getD k dfltItem).1 ≠ i := by
        intro k h1 h2
        rw [hswap, getD_swapCols _ p q k dfltItem hpcl hqcl]
        rcases eq_or_ne k q with h3 | h3
        · rw [if_pos h3]
          exact hblock p (by omega) (by omega)
        · rw [if_neg h3, if_neg (by omega)]
          exact hblock k (by omega) (by omega)
      have IH := ih (q + 1) (p + 1) (swapCols asg p q)
        ⟨swapCols st.data (b + p) (b + q), swapCols st.resp (b + p) (b + q),
          st.weights⟩ ha1 hd1 hr1 (by omega) (by omega) hblock1
      -- the two cursor targets agree
      have hbeq : ((contentList asg st b c)[q].1 == i) = true := by
        rw [hgetq, hkey]
        exact beq_iff_eq.mpr hcond
      have hcount : p + passCountP ((contentList asg st b c).drop q) i =
          (p + 1) + passCountP ((contentList (swapCols asg p q)
            ⟨swapCols st.data (b + p) (b + q), swapCols st.resp (b + p) (b + q),
              st.weights⟩ b c).drop (q + 1)) i := by
        rw [hswap, drop_swapCols_high _ p q (q + 1) (by omega) (by omega)]
        rw [passCountP, passCountP, hcons]
        simp only [List.countP_cons, hbeq]
        simp
        omega
      rw [hcount]
      have e1 : b + q + 1 = b + (q + 1) := rfl
      have e2 : b + p + 1 = b + (p + 1) := rfl
      rw [e1, e2]
      obtain ⟨i1, i2, i3, i4, i5, i6, i7, i8, i9, i10⟩ := IH
      refine ⟨i1, ?_, ?_, ?_, ?_, i6, ?_, ?_, ?_, ?_⟩
      · rw [i2]
        simp [swapCols_length]
      · rw [i3]
        simp [swapCols_length]
      · rw [i4]
      · intro k hk
        obtain ⟨o1, o2⟩ := i5 k hk
        constructor
        · rw [o1]
          simp only
          rw [getD_swapCols st.data (b + p) (b + q) k [] (by omega) (by omega),
            if_neg (by omega), if_neg (by omega)]
        · rw [o2]
          simp only
          rw [getD_swapCols st.resp (b + p) (b + q) k 0 (by omega) (by omega),
            if_neg (by omega), if_neg (by omega)]
      · intro k hk
        rw [i7 k (by omega), hswap,
          getD_swapCols _ p q k dfltItem hpcl hqcl,
          if_neg (by omega), if_neg (by omega)]
      · intro k h1 h2
        rcases eq_or_ne k p with h3 | h3
        · rw [i7 k (by omega), hswap,
            getD_swapCols _ p q k dfltItem hpcl hqcl]
          rcases eq_or_ne k q with h4 | h4
          · rw [if_pos h4, contentList_getD _ _ _ _ _ hpc]
            have h5 : p = q := by omega
            rw [h5]
            exact hcond
          · rw [if_neg h4, if_pos h3, contentList_getD _ _ _ _ _ hqc]
            exact hcond
        · exact i8 k (by omega) h2
      · rw [i9, hswap, swapCols_multiset _ p q hpcl hqcl]
      · rw [i10, hswap]
        have hd1' : (((swapCols (contentList asg st b c) p q).drop p :
            List Item) : Multiset Item) =
            (((contentList asg st b c).drop p : List Item) : Multiset Item) :=
          drop_swapCols_multiset _ p q p (le_refl p) hpq hpcl hqcl
        have hp1 : p < (swapCols (contentList asg st b c) p q).length := by
          rw [swapCols_length]; exact hpcl
        have hcons1 : (swapCols (contentList asg st b c) p q).drop p =
            (swapCols (contentList asg st b c) p q)[p] ::
              (swapCols (contentList asg st b c) p q).drop (p + 1) :=
          List.drop_eq_getElem_cons hp1
        have hkey1 : (swapCols (contentList asg st b c) p q)[p].1 = i := by
          rw [getElem_swapCols _ p q p hpcl hqcl hpcl hp1]
          rcases eq_or_ne p q with h5 | h5
          · rw [if_pos h5, ← List.getD_eq_getElem _ dfltItem hpcl, h5,
              contentList_getD _ _ _ _ _ hqc]
            exact hcond
          · rw [if_neg h5, if_pos rfl, ← List.getD_eq_getElem _ dfltItem hqcl,
              contentList_getD _ _ _ _ _ hqc]
            exact hcond
        have step : Multiset.filter (fun x => x.1 ≠ i)
            (((contentList asg st b c).drop p : List Item) : Multiset Item)
            = Multiset.filter (fun x => x.1 ≠ i)
              (((swapCols (contentList asg st b c) p q).drop (p + 1) :
                List Item) : Multiset Item) := by
          rw [← hd1', hcons1, ← Multiset.cons_coe,
            Multiset.filter_cons_of_neg _ (by simp [hkey1])]
        rw [step]
    · rw [if_neg hcond]
      have hblock1 : ∀ k, p ≤ k → k < q + 1 →
          ((contentList asg st b c).getD k dfltItem).1 ≠ i := by
        intro k h1 h2
        rcases eq_or_ne k q with h3 | h3
        · rw [h3, contentList_getD _ _ _ _ _ hqc]
          exact hcond
        · exact hblock k h1 (by omega)
      have IH := ih (q + 1) p asg st ha hd hr (by omega) (by omega) hblock1
      have hbeq : ((contentList asg st b c)[q].1 == i) = false := by
        rw [hgetq, hkey]
        exact beq_eq_false_iff_ne.mpr hcond
      have hcount : p + passCountP ((contentList asg st b c).drop q) i =
          p + passCountP ((contentList asg st b c).drop (q + 1)) i := by
        rw [passCountP, passCountP, hcons]
        simp only [List.countP_cons, hbeq]
        simp
      rw [hcount]
      have e1 : b + q + 1 = b + (q + 1) := rfl
      rw [e1]
      exact IH

/-! ### Range preservation -/

/-- The (feature column, response) pairs of samples `[b, b + c)`. -/
def pairList (st : DState) (b c : Nat) : List (List ℚ × ℚ) :=
  (List.range' b c).map (fun k => (st.data.getD k [], st.resp.getD k 0))

/-- What any in-range transformation of the training state preserves:
lengths, the weight vector, everything outside `[bb, bb + cc)` pointwise,
and the multiset of (feature column, response) pairs inside `[bb, bb+cc)`. -/
structure RangePres (bb cc : Nat) (st st' : DState) : Prop where
  len_data : st'.data.length = st.data.length
  len_resp : st'.resp.length = st.resp.length
  weights_eq : st'.weights = st.weights
  outside : ∀ k, k < bb ∨ bb + cc ≤ k →
    st'.data.getD k [] = st.data.getD k [] ∧ st'.resp.getD k 0 = st.resp.getD k 0
  pairs_eq : ((pairList st' bb cc : List (List ℚ × ℚ)) : Multiset (List ℚ × ℚ)) =
    ((pairList st bb cc : List (List ℚ × ℚ)) : Multiset (List ℚ × ℚ))

theorem RangePres.refl (bb cc : Nat) (st : DState) : RangePres bb cc st st :=
  ⟨rfl, rfl, rfl, fun _ _ => ⟨rfl, rfl⟩, rfl⟩

theorem RangePres.trans {bb cc : Nat} {st1 st2 st3 : DState}
    (h1 : RangePres bb cc st1 st2) (h2 : RangePres bb cc st2 st3) :
    RangePres bb cc st1 st3 := by
  refine ⟨h2.len_data.trans h1.len_data, h2.len_resp.trans h1.len_resp,
    h2.weights_eq.trans h1.weights_eq, ?_, h2.pairs_eq.trans h1.pairs_eq⟩
  intro k hk
  obtain ⟨a1, a2⟩ := h1.outside k hk
  obtain ⟨a3, a4⟩ := h2.outside k hk
  exact ⟨a3.trans a1, a4.trans a2⟩

theorem pairList_split (st : DState) (b m n : Nat) :
    pairList st b (m + n) = pairList st b m ++ pairList st (b + m) n := by
  rw [pairList, pairList, pairList, ← List.map_append]
  congr 1
  have h := List.range'_append b m n 1
  rw [one_mul] at h
  rw [Nat.add_comm m n]
  exact h.symm

theorem pairList_congr (st st' : DState) (b c : Nat)
    (h : ∀ k, b ≤ k → k < b + c →
      st'.data.getD k [] = st.data.getD k [] ∧
      st'.resp.getD k 0 = st.resp.getD k 0) :
    pairList st' b c = pairList st b c := by
  apply List.ext_getElem (by simp [pairList])
  intro k h1 h2
  have hk : k < c := by simpa [pairList] using h1
  simp only [pairList, List.getElem_map, List.getElem_range', one_mul]
  obtain ⟨e1, e2⟩ := h (b + k) (by omega) (by omega)
  rw [e1, e2]

/-- Widening: a transformation preserving a subrange `[bb, bb+cc)` of
`[b, b+c)` (and the outside of the subrange pointwise) preserves the whole
range. -/
theorem RangePres.widen {bb cc b c : Nat} {st st' : DState}
    (h : RangePres bb cc st st') (h1 : b ≤ bb) (h2 : bb + cc ≤ b + c) :
    RangePres b c st st' := by
  refine ⟨h.len_data, h.len_resp, h.weights_eq, ?_, ?_⟩
  · intro k hk
    exact h.outside k (by omega)
  · have e1 : c = (bb - b) + (cc + (b + c - (bb + cc))) := by omega
    have e2 : pairList st' b c =
        pairList st' b (bb - b) ++ (pairList st' (b + (bb - b)) cc ++
          pairList st' (b + (bb - b) + cc) (b + c - (bb + cc))) := by
      rw [← pairList_split, ← pairList_split, ← e1]
    have e3 : pairList st b c =
        pairList st b (bb - b) ++ (pairList st (b + (bb - b)) cc ++
          pairList st (b + (bb - b) + cc) (b + c - (bb + cc))) := by
      rw [← pairList_split, ← pairList_split, ← e1]
    have e4 : b + (bb - b) = bb := by omega
    have e5 : pairList st' b (bb - b) = pairList st b (bb - b) := by
      apply pairList_congr
      intro k hk1 hk2
      exact h.outside k (by omega)
    have e6 : pairList st' (b + (bb - b) + cc) (b + c - (bb + cc)) =
        pairList st (b + (bb - b) + cc) (b + c - (bb + cc)) := by
      apply pairList_congr
      intro k hk1 hk2
      exact h.outside k (by omega)
    rw [e2, e3, e5, e6, e4]
    have e7 : ((pairList st' bb cc : List (List ℚ × ℚ)) : Multiset (List ℚ × ℚ)) =
        ((pairList st bb cc : List (List ℚ × ℚ)) : Multiset (List ℚ × ℚ)) :=
      h.pairs_eq
    have e8 : (↑(pairList st b (bb - b) ++ (pairList st' bb cc ++
        pairList st (bb + cc) (b + c - (bb + cc)))) : Multiset (List ℚ × ℚ)) =
        ↑(pairList st b (bb - b) ++ (pairList st bb cc ++
          pairList st (bb + cc) (b + c - (bb + cc)))) := by
      rw [← Multiset.coe_add, ← Multiset.coe_add, ← Multiset.coe_add,
        ← Multiset.coe_add, e7]
    exact e8

/-- The first components of the range content form the assignment row. -/
theorem contentList_map_fst (asg : List Nat) (st : DState) (b c : Nat)
    (ha : asg.length = c) :
    (contentList asg st b c).map (fun x => x.1) = asg := by
  apply List.ext_getElem (by simp [contentList_length, ha])
  intro k h1 h2
  have hk : k < c := by simpa [contentList_length] using h1
  have hkk : k < asg.length := by omega
  simp only [List.getElem_map]
  rw [← List.getD_eq_getElem (contentList asg st b c) dfltItem
    (by rw [contentList_length]; exact hk), contentList_getD _ _ _ _ _ hk]
  exact List.getD_eq_getElem asg 0 hkk

/-- The pair list is the second projection of the range content. -/
theorem pairList_eq_contentList_map (asg : List Nat) (st : DState) (b c : Nat) :
    pairList st b c = (contentList asg st b c).map (fun x => x.2) := by
  apply List.ext_getElem (by simp [pairList, contentList_length])
  intro k h1 h2
  have hk : k < c := by simpa [pairList] using h1
  simp only [List.getElem_map, pairList, List.getElem_range', one_mul]
  rw [← List.getD_eq_getElem (contentList asg st b c) dfltItem
    (by rw [contentList_length]; exact hk), contentList_getD _ _ _ _ _ hk]

theorem innerPass_spec (b c i : Nat) (asg : List Nat) (st : DState) (p : Nat)
    (ha : asg.length = c) (hd : b + c ≤ st.data.length)
    (hr : b + c ≤ st.resp.length) (hp : p ≤ c) :
    PassSpec b c i asg st p
      (p + passCountP ((contentList asg st b c).drop p) i)
      (innerPass b c i asg st (b + p)) := by
  have h := innerPassGo_spec b c i (c - p) p p asg st ha hd hr (le_refl p)
    (by omega) (fun k h1 h2 => absurd h2 (by omega))
  rw [innerPass]
  have e : b + c - (b + p) = c - p := by omega
  rw [e]
  exact h

theorem passCountP_eq_asg (asg : List Nat) (st : DState) (b c p i : Nat)
    (ha : asg.length = c) :
    passCountP ((contentList asg st b c).drop p) i = (asg.drop p).count i := by
  have h1 : ((((contentList asg st b c).map (fun x => x.1)).drop p).countP
      (fun a => a == i)) = (asg.drop p).countP (fun a => a == i) := by
    rw [contentList_map_fst asg st b c ha]
  rw [← List.map_drop] at h1
  rw [List.countP_map] at h1
  rw [passCountP]
  exact h1

theorem map_fst_filter_ne_list (i : Nat) (L : List Item) :
    (L.filter (fun x => decide (x.1 ≠ i))).map (fun x : Item => x.1) =
      (L.map (fun x : Item => x.1)).filter (fun a => decide (a ≠ i)) := by
  induction L with
  | nil => rfl
  | cons hd tl ih =>
    simp only [ne_eq, decide_not] at ih
    by_cases hh : hd.1 = i
    · simp [List.filter_cons, hh, ih]
    · simp [List.filter_cons, hh, ih]

theorem map_fst_filter_ne (i : Nat) (L : List Item) :
    Multiset.map (fun x : Item => x.1)
      (Multiset.filter (fun x : Item => x.1 ≠ i) (↑L : Multiset Item)) =
      Multiset.filter (fun a => a ≠ i)
        (↑(L.map (fun x : Item => x.1)) : Multiset Nat) := by
  simp only [Multiset.filter_coe, Multiset.map_coe, Multiset.coe_eq_coe]
  rw [map_fst_filter_ne_list i L]

theorem PassSpec.suffix_asg {b c i p pf : Nat} {asg : List Nat} {st : DState}
    {R : List Nat × DState × Nat}
    (hs : PassSpec b c i asg st p pf R) (ha : asg.length = c) :
    (↑(R.1.drop pf) : Multiset Nat) =
      Multiset.filter (fun a => a ≠ i) (↑(asg.drop p) : Multiset Nat) := by
  have h := congrArg (Multiset.map (fun x : Item => x.1)) hs.suffix_eq
  rw [Multiset.map_coe, List.map_drop,
    contentList_map_fst R.1 R.2.1 b c hs.len_asg, map_fst_filter_ne,
    List.map_drop, contentList_map_fst asg st b c ha] at h
  exact h

theorem PassSpec.pairs {b c i p pf : Nat} {asg : List Nat} {st : DState}
    {R : List Nat × DState × Nat}
    (hs : PassSpec b c i asg st p pf R) :
    ((pairList R.2.1 b c : List (List ℚ × ℚ)) : Multiset (List ℚ × ℚ)) =
      ((pairList st b c : List (List ℚ × ℚ)) : Multiset (List ℚ × ℚ)) := by
  have h := congrArg (Multiset.map (fun x : Item => x.2)) hs.perm
  rw [Multiset.map_coe, Multiset.map_coe,
    ← pairList_eq_contentList_map R.1 R.2.1 b c,
    ← pairList_eq_contentList_map asg st b c] at h
  exact h

theorem PassSpec.rangePres {b c i p pf : Nat} {asg : List Nat} {st : DState}
    {R : List Nat × DState × Nat}
    (hs : PassSpec b c i asg st p pf R) : RangePres b c st R.2.1 :=
  ⟨hs.len_data, hs.len_resp, hs.weights_eq, hs.outside, hs.pairs⟩

/-- What the per-child loop of `Train` guarantees after processing children
`i, …, i + m - 1`, relative to a reference multiset `A0` of assignments. -/
structure LoopSpec (b c : Nat) (A0 : Multiset Nat) (iEnd : Nat)
    (s F : LoopSt) : Prop where
  len_asg : F.asg.length = c
  pres : RangePres b c s.st F.st
  cur_ge : b ≤ F.cur
  cur_le : F.cur ≤ b + c
  suffix_inv : (↑(F.asg.drop (F.cur - b)) : Multiset Nat) =
    Multiset.filter (fun a => iEnd ≤ a) A0

theorem splitLoop_spec (b c : Nat) (counts : List Nat)
    (tc : DState → Nat → Nat → Option FeatureImportance → TrainResult)
    (htc : ∀ st bb cc fi, b ≤ bb → bb + cc ≤ b + c →
      b + c ≤ st.data.length → b + c ≤ st.resp.length →
      RangePres bb cc st (tc st bb cc fi).st)
    (A0 : Multiset Nat) :
    ∀ (m i : Nat) (s : LoopSt),
      s.asg.length = c → b + c ≤ s.st.data.length →
      b + c ≤ s.st.resp.length → b ≤ s.cur → s.cur ≤ b + c →
      (↑(s.asg.drop (s.cur - b)) : Multiset Nat) =
        Multiset.filter (fun a => i ≤ a) A0 →
      LoopSpec b c A0 (i + m) s (splitLoop tc b c counts (List.range' i m) s) := by
  intro m
  induction m with
  | zero =>
    intro i s ha hd hr hc1 hc2 hsuf
    have e : List.range' i 0 = [] := rfl
    rw [e]
    exact ⟨ha, RangePres.refl b c s.st, hc1, hc2, by rw [Nat.add_zero]; exact hsuf⟩
  | succ m ih =>
    intro i s ha hd hr hc1 hc2 hsuf
    rw [List.range'_succ]
    let p := s.cur - b
    have ecur : s.cur = b + p := by omega
    have hp : p ≤ c := by omega
    have hs := innerPass_spec b c i s.asg s.st p ha hd hr hp
    have hpf_le : p + passCountP ((contentList s.asg s.st b c).drop p) i ≤ c := by
      have h1 : passCountP ((contentList s.asg s.st b c).drop p) i ≤
          ((contentList s.asg s.st b c).drop p).length :=
        List.countP_le_length _
      have h2 : ((contentList s.asg s.st b c).drop p).length = c - p := by
        rw [List.length_drop, contentList_length]
      omega
    simp only [splitLoop]
    rw [ecur]
    set pf := p + passCountP ((contentList s.asg s.st b c).drop p) i with hpf
    set r1 := innerPass b c i s.asg s.st (b + p) with hr1
    have hcur' : r1.2.2 = b + pf := hs.cur_eq
    rw [hcur']
    have ecc2 : b + pf - (b + p) = pf - p := by omega
    rw [ecc2]
    have hchild := htc r1.2.1 (b + p) (pf - p) s.fi (by omega)
      (by omega)
      (by rw [hs.len_data]; exact hd) (by rw [hs.len_resp]; exact hr)
    set child := tc r1.2.1 (b + p) (pf - p) s.fi with hch
    -- the next loop state
    have hnext := ih (i + 1)
      ⟨r1.1, child.st, b + pf, child.fi,
        s.acc + (counts.getD i 0 : ℚ) / (c : ℚ) * (-child.ret),
        s.children ++ [child.tree]⟩
      hs.len_asg
      (by simp only; rw [hchild.len_data, hs.len_data]; exact hd)
      (by simp only; rw [hchild.len_resp, hs.len_resp]; exact hr)
      (by simp only; omega)
      (by simp only; omega)
      (by
        simp only
        have e1 : b + pf - b = pf := by omega
        rw [e1, hs.suffix_asg ha]
        have e2 : s.cur - b = p := rfl
        rw [e2] at hsuf
        rw [hsuf, Multiset.filter_filter]
        apply Multiset.filter_congr
        intro a _
        constructor
        · rintro ⟨u1, u2⟩
          omega
        · intro u
          exact ⟨by omega, by omega⟩)
    have efin : i + 1 + m = i + (m + 1) := by omega
    rw [efin] at hnext
    refine ⟨hnext.len_asg, ?_, hnext.cur_ge, hnext.cur_le, hnext.suffix_inv⟩
    exact (hs.rangePres.trans ((hchild.widen (by omega) (by omega)).trans
      hnext.pres))

/-! ### Unconditional facts about the weight vector and the sink -/

theorem innerPassGo_weights (b i : Nat) :
    ∀ (n j : Nat) (asg : List Nat) (st : DState) (cur : Nat),
      (innerPassGo b i n j asg st cur).2.1.weights = st.weights := by
  intro n
  induction n with
  | zero => intro j asg st cur; rfl
  | succ n ih =>
    intro j asg st cur
    rw [innerPassGo]
    by_cases h : asg.getD (j - b) 0 = i
    · rw [if_pos h, ih]
    · rw [if_neg h, ih]

theorem splitLoop_weights (b c : Nat) (counts : List Nat)
    (tc : DState → Nat → Nat → Option FeatureImportance → TrainResult)
    (hw : ∀ st b' c' fi, (tc st b' c' fi).st.weights = st.weights) :
    ∀ (is : List Nat) (s : LoopSt),
      (splitLoop tc b c counts is s).st.weights = s.st.weights := by
  intro is
  induction is with
  | nil => intro s; rfl
  | cons i rest ih =>
    intro s
    rw [splitLoop, ih]
    simp only
    rw [hw]
    rw [innerPass]
    exact innerPassGo_weights b i _ _ s.asg s.st s.cur

theorem childAssign_length (sp : Splitter) (st : DState) (b c bestDim : Nat)
    (si : List ℚ) : (childAssign sp st b c bestDim si).length = c := by
  simp [childAssign]

/-- The `(bestGain, bestDim, splitInfo)` result of the dimension scan of one
`Train` invocation at depth `d + 1` (the scan runs iff `maximumDepth != 1`,
i.e. iff `d ≠ 0`). -/
def trainScan (ns cs : Splitter) (info : DatasetInfo) (gainFn : GainFn)
    (mls : Nat) (mgs : ℚ) (d : Nat) (st : DState) (b c : Nat) :
    ℚ × Nat × List ℚ :=
  if d ≠ 0 then
    dimScan ns cs info st b c mls mgs (List.range info.dims)
      (gainFn.evaluate (respRange st b c) st.weights, info.dims, [])
  else (gainFn.evaluate (respRange st b c) st.weights, info.dims, [])

/-- The evaluator picked for the winning dimension. -/
def trainSplitter (ns cs : Splitter) (info : DatasetInfo) (bestDim : Nat) :
    Splitter :=
  match info.type bestDim with
  | .categorical => cs
  | .numeric => ns

theorem Train_zero (ns cs : Splitter) (info : DatasetInfo) (gainFn : GainFn)
    (mls : Nat) (mgs : ℚ) (st : DState) (b c : Nat)
    (fi : Option FeatureImportance) :
    Train ns cs info gainFn mls mgs 0 st b c fi =
      ⟨.mk [] (.pred (gainFn.outputLeafValue (respRange st b c) st.weights)) 0
          [] (gainFn.evaluate (respRange st b c) st.weights), st, fi,
        -(gainFn.evaluate (respRange st b c) st.weights)⟩ := rfl

theorem Train_succ (ns cs : Splitter) (info : DatasetInfo) (gainFn : GainFn)
    (mls : Nat) (mgs : ℚ) (d : Nat) (st : DState) (b c : Nat)
    (fi : Option FeatureImportance) :
    Train ns cs info gainFn mls mgs (d + 1) st b c fi =
      (if (trainScan ns cs info gainFn mls mgs d st b c).2.1 ≠ info.dims then
        let bestGain := (trainScan ns cs info gainFn mls mgs d st b c).1
        let bestDim := (trainScan ns cs info gainFn mls mgs d st b c).2.1
        let si := (trainScan ns cs info gainFn mls mgs d st b c).2.2
        let sp := trainSplitter ns cs info bestDim
        let asg := childAssign sp st b c bestDim si
        let numCh := sp.numChildren si
        let childCounts := (List.range numCh).map (fun i => asg.countP (· == i))
        let res := splitLoop
          (fun st' b' c' fi'' => Train ns cs info gainFn mls mgs d st' b' c' fi'')
          b c childCounts (List.range numCh)
          ⟨asg, st, b,
            fi.map (fun f =>
              increaseFeatureCover (increaseFeatureFrequency f bestDim 1)
                bestDim bestGain), 0, []⟩
        ⟨.mk res.children (.dim bestDim) (info.type bestDim).toNat si res.acc,
          res.st, res.fi, -res.acc⟩
      else
        ⟨.mk []
            (.pred (gainFn.outputLeafValue (respRange st b c) st.weights)) 0
            (trainScan ns cs info gainFn mls mgs d st b c).2.2
            (trainScan ns cs info gainFn mls mgs d st b c).1, st, fi,
          -(trainScan ns cs info gainFn mls mgs d st b c).1⟩) := rfl

/-- `Train` never touches the weight vector: the partition loop swaps only
the assignment row, the feature matrix and the response vector
(source lines 236–239). -/
theorem Train_weights (ns cs : Splitter) (info : DatasetInfo) (gainFn : GainFn)
    (mls : Nat) (mgs : ℚ) :
    ∀ (d : Nat) (st : DState) (b c : Nat) (fi : Option FeatureImportance),
      (Train ns cs info gainFn mls mgs d st b c fi).st.weights = st.weights := by
  intro d
  induction d with
  | zero => intro st b c fi; rfl
  | succ d ih =>
    intro st b c fi
    rw [Train_succ]
    by_cases hbd : (trainScan ns cs info gainFn mls mgs d st b c).2.1 ≠ info.dims
    · rw [if_pos hbd]
      exact splitLoop_weights _ _ _ _
        (fun st' b' c' fi' => ih st' b' c' fi') _ _
    · rw [if_neg hbd]

/-- `Train` on `[b, b+c)` preserves lengths, the weight vector, all data
outside the range, and the multiset of (feature column, response) pairs
inside the range. -/
theorem Train_pres (ns cs : Splitter) (info : DatasetInfo) (gainFn : GainFn)
    (mls : Nat) (mgs : ℚ) :
    ∀ (d : Nat) (st : DState) (b c : Nat) (fi : Option FeatureImportance),
      b + c ≤ st.data.length → b + c ≤ st.resp.length →
      RangePres b c st (Train ns cs info gainFn mls mgs d st b c fi).st := by
  intro d
  induction d with
  | zero =>
    intro st b c fi hd hr
    exact RangePres.refl b c st
  | succ d ih =>
    intro st b c fi hd hr
    rw [Train_succ]
    by_cases hbd : (trainScan ns cs info gainFn mls mgs d st b c).2.1 ≠ info.dims
    · rw [if_pos hbd]
      simp only
      rw [List.range_eq_range']
      set bd := (trainScan ns cs info gainFn mls mgs d st b c).2.1 with hbdd
      set siX := (trainScan ns cs info gainFn mls mgs d st b c).2.2 with hsix
      set sp := trainSplitter ns cs info bd with hspd
      set asg := childAssign sp st b c bd siX with hasg
      set nch := sp.numChildren siX with hnch
      set fi2 := fi.map (fun f =>
        increaseFeatureCover (increaseFeatureFrequency f bd 1) bd
          (trainScan ns cs info gainFn mls mgs d st b c).1) with hfi2
      have hloop := splitLoop_spec b c
        ((List.range' 0 nch).map (fun i => asg.countP (· == i)))
        (fun st' b' c' fi'' => Train ns cs info gainFn mls mgs d st' b' c' fi'')
        (fun st' bb cc fi' h1 h2 h3 h4 =>
          ih st' bb cc fi' (le_trans h2 h3) (le_trans h2 h4))
        (↑asg) nch 0 ⟨asg, st, b, fi2, 0, []⟩
        (by rw [hasg]; exact childAssign_length sp st b c bd siX) hd hr
        (le_refl b) (Nat.le_add_right b c)
        (by
          simp only
          simp only [Nat.sub_self, List.drop_zero]
          symm
          rw [Multiset.filter_eq_self]
          intro a _
          exact Nat.zero_le a)
      exact hloop.pres
    · rw [if_neg hbd]
      exact RangePres.refl b c st

/-! ### The per-child ranges of the partition loop -/

/-- A child trainer that only records, in the `splitInfo` field of a dummy
node, the range `[bb, bb + cc)` it was invoked on, and changes nothing
else.  Used to observe which ranges the per-child loop passes to the
recursive `Train` calls. -/
def recorderChild : DState → Nat → Nat → Option FeatureImportance →
    TrainResult :=
  fun st bb cc fi => ⟨.mk [] (.pred 0) 0 [(bb : ℚ), (cc : ℚ)] 0, st, fi, 0⟩

/-- `currentChildBegin` of child `i`: the base column plus the counts of all
earlier children. -/
def childStartL (asg : List Nat) (b i : Nat) : Nat :=
  b + ((List.range i).map (fun k => asg.count k)).sum

theorem count_of_suffix {A0 : Multiset Nat} {l : List Nat} {i : Nat}
    (h : (↑l : Multiset Nat) = Multiset.filter (fun a => i ≤ a) A0) :
    l.count i = A0.count i := by
  have h1 : Multiset.count i (↑l : Multiset Nat) =
      Multiset.count i (Multiset.filter (fun a => i ≤ a) A0) := by rw [h]
  rw [Multiset.coe_count] at h1
  rw [h1, Multiset.count_filter, if_pos (le_refl i)]

theorem recorder_loop (b c : Nat) (counts : List Nat) :
    ∀ (m i : Nat) (s : LoopSt) (A0 : Multiset Nat),
      s.asg.length = c → b + c ≤ s.st.data.length →
      b + c ≤ s.st.resp.length → b ≤ s.cur → s.cur ≤ b + c →
      (↑(s.asg.drop (s.cur - b)) : Multiset Nat) =
        Multiset.filter (fun a => i ≤ a) A0 →
      (splitLoop recorderChild b c counts (List.range' i m) s).children =
        s.children ++ (List.range' i m).map (fun k =>
          XGBTree.mk [] (.pred 0) 0
            [((s.cur + ((List.range' i (k - i)).map
                (fun j => A0.count j)).sum : Nat) : ℚ),
             ((A0.count k : Nat) : ℚ)] 0) := by
  intro m
  induction m with
  | zero =>
    intro i s A0 ha hd hr hc1 hc2 hsuf
    have e : List.range' i 0 = [] := rfl
    rw [e]
    simp [splitLoop]
  | succ m ih =>
    intro i s A0 ha hd hr hc1 hc2 hsuf
    rw [List.range'_succ]
    let p := s.cur - b
    have ecur : s.cur = b + p := by omega
    have hp : p ≤ c := by omega
    have hs := innerPass_spec b c i s.asg s.st p ha hd hr hp
    have hcnt : passCountP ((contentList s.asg s.st b c).drop p) i =
        A0.count i := by
      rw [passCountP_eq_asg s.asg s.st b c p i ha]
      exact count_of_suffix (by rw [show p = s.cur - b from rfl]; exact hsuf)
    have hpf_le : p + passCountP ((contentList s.asg s.st b c).drop p) i ≤ c := by
      have h1 : passCountP ((contentList s.asg s.st b c).drop p) i ≤
          ((contentList s.asg s.st b c).drop p).length :=
        List.countP_le_length _
      have h2 : ((contentList s.asg s.st b c).drop p).length = c - p := by
        rw [List.length_drop, contentList_length]
      omega
    simp only [splitLoop]
    rw [ecur]
    set pf := p + passCountP ((contentList s.asg s.st b c).drop p) i with hpf
    set r1 := innerPass b c i s.asg s.st (b + p) with hr1
    have hcur' : r1.2.2 = b + pf := hs.cur_eq
    rw [hcur']
    have ecc2 : b + pf - (b + p) = pf - p := by omega
    rw [ecc2]
    -- the recorder child changes nothing but the children record
    have hnext := ih (i + 1)
      ⟨r1.1, r1.2.1, b + pf, s.fi,
        s.acc + (counts.getD i 0 : ℚ) / (c : ℚ) * (-(0 : ℚ)),
        s.children ++ [XGBTree.mk [] (.pred 0) 0
          [((b + p : Nat) : ℚ), ((pf - p : Nat) : ℚ)] 0]⟩
      A0 hs.len_asg
      (by simp only; rw [hs.len_data]; exact hd)
      (by simp only; rw [hs.len_resp]; exact hr)
      (by simp only; omega)
      (by simp only; omega)
      (by
        simp only
        have e1 : b + pf - b = pf := by omega
        rw [e1, hs.suffix_asg ha]
        have e2 : s.cur - b = p := rfl
        rw [e2] at hsuf
        rw [hsuf, Multiset.filter_filter]
        apply Multiset.filter_congr
        intro a _
        constructor
        · rintro ⟨u1, u2⟩
          omega
        · intro u
          exact ⟨by omega, by omega⟩)
    simp only [recorderChild] at hnext ⊢
    rw [hnext, List.append_assoc]
    have hcc : pf - p = A0.count i := by
      rw [hpf, hcnt]
      omega
    congr 1
    rw [List.map_cons]
    rw [show List.range' i (i - i) = [] from by rw [Nat.sub_self]; rfl]
    simp only [List.map_nil, List.sum_nil, Nat.add_zero]
    rw [hcc, List.singleton_append]
    congr 1
    apply List.map_congr_left
    intro k hk
    have hik : i + 1 ≤ k := (List.mem_range'_1.mp hk).1
    have e3 : k - i = (k - (i + 1)) + 1 := by omega
    have e4 : b + pf + ((List.range' (i + 1) (k - (i + 1))).map
        (fun j => Multiset.count j A0)).sum
        = b + p + ((List.range' i (k - i)).map
          (fun j => Multiset.count j A0)).sum := by
      rw [e3, List.range'_succ, List.map_cons, List.sum_cons]
      omega
    rw [e4]

/-- A child trainer that changes nothing at all: used to observe the effect
of the partition passes alone, without the recursive child training. -/
def idChild : DState → Nat → Nat → Option FeatureImportance → TrainResult :=
  fun st _ _ fi => ⟨.mk [] (.pred 0) 0 [] 0, st, fi, 0⟩

/-- If a boolean predicate holds at exactly the positions `[S, T)` of a
list, then filtering by it yields exactly that slice. -/
theorem filter_eq_slice {l : List α} {p : α → Bool} {S T : Nat}
    (hST : S ≤ T) (hT : T ≤ l.length)
    (h : ∀ (k : Nat) (hk : k < l.length), p l[k] = true ↔ (S ≤ k ∧ k < T)) :
    l.filter p = (l.drop S).take (T - S) := by
  have e1 : l = l.take S ++ ((l.drop S).take (T - S) ++ (l.drop S).drop (T - S)) := by
    rw [List.take_append_drop, List.take_append_drop]
  have e2 : (l.drop S).drop (T - S) = l.drop T := by
    rw [List.drop_drop]
    congr 1
    omega
  have hfilter1 : (l.take S).filter p = [] := by
    rw [List.filter_eq_nil_iff]
    intro a ha
    rw [List.mem_take_iff_getElem] at ha
    obtain ⟨k, hk, ha⟩ := ha
    have hk2 : k < l.length := by
      have := hk
      simp only [lt_min_iff] at this
      exact this.2.trans_le (le_refl _) |>.trans_le (le_refl _)
    intro hpa
    rw [← ha] at hpa
    have := (h k hk2).mp hpa
    simp only [lt_min_iff] at hk
    omega
  have hfilter2 : ((l.drop S).take (T - S)).filter p = (l.drop S).take (T - S) := by
    rw [List.filter_eq_self]
    intro a ha
    rw [List.mem_take_iff_getElem] at ha
    obtain ⟨k, hk, ha⟩ := ha
    simp only [lt_min_iff, List.length_drop] at hk
    have hk2 : S + k < l.length := by omega
    rw [List.getElem_drop l] at ha
    rw [← ha]
    exact (h (S + k) hk2).mpr ⟨by omega, by omega⟩
  have hfilter3 : (l.drop T).filter p = [] := by
    rw [List.filter_eq_nil_iff]
    intro a ha
    rw [List.mem_iff_getElem] at ha
    obtain ⟨k, hk, ha⟩ := ha
    simp only [List.length_drop] at hk
    have hk2 : T + k < l.length := by omega
    rw [List.getElem_drop l] at ha
    intro hpa
    rw [← ha] at hpa
    have := (h (T + k) hk2).mp hpa
    omega
  conv_lhs => rw [e1]
  rw [List.filter_append, List.filter_append, hfilter1, hfilter2, e2,
    hfilter3, List.nil_append, List.append_nil]

/-- Every position below the total partial sum lies in some child's
interval. -/
theorem childStartL_cover (asg0 : List Nat) :
    ∀ (m k : Nat), k < childStartL asg0 0 m →
      ∃ t, t < m ∧ childStartL asg0 0 t ≤ k ∧ k < childStartL asg0 0 (t + 1) := by
  intro m
  induction m with
  | zero =>
    intro k hk
    rw [childStartL] at hk
    simp at hk
  | succ m ih =>
    intro k hk
    by_cases h1 : k < childStartL asg0 0 m
    · obtain ⟨t, ht1, ht2, ht3⟩ := ih k h1
      exact ⟨t, by omega, ht2, ht3⟩
    · exact ⟨m, by omega, by omega, hk⟩

theorem childStartL_mono (asg0 : List Nat) (i : Nat) :
    childStartL asg0 0 i ≤ childStartL asg0 0 (i + 1) := by
  rw [childStartL, childStartL, List.range_succ, List.map_append,
    List.sum_append]
  simp

theorem passCountP_suffix (s : LoopSt) (b c p i : Nat) (asg0 : List Nat)
    (C0 : List Item) (ha : s.asg.length = c)
    (hC0 : C0.map (fun x => x.1) = asg0)
    (hsuf : (↑((contentList s.asg s.st b c).drop p) : Multiset Item)
      = Multiset.filter (fun x => i ≤ x.1) (↑C0 : Multiset Item)) :
    passCountP ((contentList s.asg s.st b c).drop p) i = asg0.count i := by
  have h1 : passCountP ((contentList s.asg s.st b c).drop p) i
      = Multiset.countP (fun x : Item => x.1 = i)
        (↑((contentList s.asg s.st b c).drop p) : Multiset Item) := by
    rw [Multiset.coe_countP, passCountP]
    apply List.countP_congr
    intro x _
    constructor
    · intro h
      simpa using h
    · intro h
      simpa using h
  rw [h1, hsuf, Multiset.countP_eq_card_filter, Multiset.filter_filter]
  have h2 : Multiset.filter (fun x : Item => x.1 = i ∧ i ≤ x.1)
      (↑C0 : Multiset Item) = Multiset.filter (fun x : Item => x.1 = i)
        (↑C0 : Multiset Item) := by
    apply Multiset.filter_congr
    intro x _
    constructor
    · rintro ⟨u, _⟩
      exact u
    · intro u
      exact ⟨u, by omega⟩
  rw [h2, ← Multiset.countP_eq_card_filter, Multiset.coe_countP]
  have h3 : C0.countP (fun a => decide (a.1 = i))
      = (C0.map (fun x => x.1)).countP (fun a => a == i) := by
    rw [List.countP_map]
    apply List.countP_congr
    intro x _
    constructor
    · intro h
      simpa using (by simpa using h : x.1 = i)
    · intro h
      simpa using (by simpa using h : x.1 = i)
  rw [h3, hC0]
  rfl

theorem childStartL_succ (asg0 : List Nat) (b i : Nat) :
    childStartL asg0 b (i + 1) = childStartL asg0 b i + asg0.count i := by
  rw [childStartL, childStartL, List.range_succ, List.map_append,
    List.sum_append]
  simp [Nat.add_assoc]

theorem idLoop_grouped (b c : Nat) (counts : List Nat) (asg0 : List Nat)
    (C0 : List Item) (hC0 : C0.map (fun x => x.1) = asg0) :
    ∀ (m i : Nat) (s : LoopSt),
      s.asg.length = c → b + c ≤ s.st.data.length →
      b + c ≤ s.st.resp.length →
      s.cur = b + childStartL asg0 0 i → childStartL asg0 0 i ≤ c →
      ((↑(contentList s.asg s.st b c) : Multiset Item) =
        (↑C0 : Multiset Item)) →
      ((↑((contentList s.asg s.st b c).drop (childStartL asg0 0 i)) :
          Multiset Item)
        = Multiset.filter (fun x => i ≤ x.1) (↑C0 : Multiset Item)) →
      ((splitLoop idChild b c counts (List.range' i m) s).asg.length = c ∧
       (splitLoop idChild b c counts (List.range' i m) s).st.data.length =
         s.st.data.length ∧
       (splitLoop idChild b c counts (List.range' i m) s).st.resp.length =
         s.st.resp.length ∧
       (splitLoop idChild b c counts (List.range' i m) s).cur =
         b + childStartL asg0 0 (i + m) ∧
       childStartL asg0 0 (i + m) ≤ c ∧
       ((↑(contentList (splitLoop idChild b c counts (List.range' i m) s).asg
            (splitLoop idChild b c counts (List.range' i m) s).st b c) :
          Multiset Item) = (↑C0 : Multiset Item)) ∧
       ((↑((contentList (splitLoop idChild b c counts (List.range' i m) s).asg
            (splitLoop idChild b c counts (List.range' i m) s).st b c).drop
              (childStartL asg0 0 (i + m))) : Multiset Item)
         = Multiset.filter (fun x => i + m ≤ x.1) (↑C0 : Multiset Item)) ∧
       (∀ k, k < childStartL asg0 0 i →
         (contentList (splitLoop idChild b c counts (List.range' i m) s).asg
            (splitLoop idChild b c counts (List.range' i m) s).st b c).getD k
              dfltItem
           = (contentList s.asg s.st b c).getD k dfltItem) ∧
       (∀ j, i ≤ j → j < i + m → ∀ k, childStartL asg0 0 j ≤ k →
         k < childStartL asg0 0 (j + 1) →
         ((contentList (splitLoop idChild b c counts (List.range' i m) s).asg
            (splitLoop idChild b c counts (List.range' i m) s).st b c).getD k
              dfltItem).1 = j)) := by
  intro m
  induction m with
  | zero =>
    intro i s ha hd hr hcur hps hperm hsuf
    have e : List.range' i 0 = [] := rfl
    rw [e, Nat.add_zero]
    exact ⟨ha, rfl, rfl, hcur, hps, hperm, hsuf, fun k _ => rfl,
      fun j h1 h2 k _ _ => absurd h1 (by omega)⟩
  | succ m ih =>
    intro i s ha hd hr hcur hps hperm hsuf
    rw [List.range'_succ]
    set p := childStartL asg0 0 i with hpdef
    have hp : p ≤ c := hps
    have hs := innerPass_spec b c i s.asg s.st p ha hd hr hp
    have hcnt : passCountP ((contentList s.asg s.st b c).drop p) i =
        asg0.count i :=
      passCountP_suffix s b c p i asg0 C0 ha hC0 hsuf
    have hpf_le : p + passCountP ((contentList s.asg s.st b c).drop p) i
        ≤ c := by
      have h1 : passCountP ((contentList s.asg s.st b c).drop p) i ≤
          ((contentList s.asg s.st b c).drop p).length :=
        List.countP_le_length _
      have h2 : ((contentList s.asg s.st b c).drop p).length = c - p := by
        rw [List.length_drop, contentList_length]
      omega
    simp only [splitLoop]
    rw [hcur]
    set pf := p + passCountP ((contentList s.asg s.st b c).drop p) i with hpf
    have hpfeq : pf = childStartL asg0 0 (i + 1) := by
      rw [childStartL_succ, hpf, hcnt]
    set r1 := innerPass b c i s.asg s.st (b + p) with hr1
    have hcur' : r1.2.2 = b + pf := hs.cur_eq
    rw [hcur']
    simp only [idChild]
    have hCS' : contentList r1.1 r1.2.1 b c =
        contentList r1.1 r1.2.1 b c := rfl
    have hperm' : (↑(contentList r1.1 r1.2.1 b c) : Multiset Item) =
        (↑C0 : Multiset Item) := hs.perm.trans hperm
    have hsuf' : (↑((contentList r1.1 r1.2.1 b c).drop
        (childStartL asg0 0 (i + 1))) : Multiset Item)
        = Multiset.filter (fun x => i + 1 ≤ x.1) (↑C0 : Multiset Item) := by
      rw [← hpfeq, hs.suffix_eq, hsuf, Multiset.filter_filter]
      apply Multiset.filter_congr
      intro x _
      constructor
      · rintro ⟨u1, u2⟩
        omega
      · intro u
        exact ⟨by omega, by omega⟩
    have hnext := ih (i + 1)
      ⟨r1.1, r1.2.1, b + pf, s.fi,
        s.acc + (counts.getD i 0 : ℚ) / (c : ℚ) * (-(0 : ℚ)),
        s.children ++ [XGBTree.mk [] (.pred 0) 0 [] 0]⟩
      hs.len_asg
      (by simp only; rw [hs.len_data]; exact hd)
      (by simp only; rw [hs.len_resp]; exact hr)
      (by simp only; rw [hpfeq])
      (by rw [← hpfeq]; exact hpf_le)
      hperm' hsuf'
    obtain ⟨n1, n2, n3, n4, n5, n6, n7, n8, n9⟩ := hnext
    have efin : i + 1 + m = i + (m + 1) := by omega
    rw [efin] at n4 n5 n7 n9
    refine ⟨n1, by rw [n2, hs.len_data], by rw [n3, hs.len_resp], n4, n5,
      n6, n7, ?_, ?_⟩
    · intro k hk
      rw [n8 k (by rw [hpfeq] at *; have := childStartL_mono asg0 i; omega)]
      exact hs.prefix_eq k (by omega)
    · intro j h1 h2 k h3 h4
      rcases eq_or_ne j i with h5 | h5
      · subst h5
        rw [n8 k (by rw [hpfeq] at *; omega)]
        exact hs.seg_key k (by rw [← hpdef] at h3; exact h3)
          (by rw [← hpfeq] at h4; omega)
      · exact n9 j (by omega) (by omega) k h3 h4

theorem sum_map_add_nat (l : List Nat) (f g : Nat → Nat) :
    (l.map (fun x => f x + g x)).sum = (l.map f).sum + (l.map g).sum := by
  induction l with
  | nil => rfl
  | cons x xs ih =>
    simp only [List.map_cons, List.sum_cons, ih]
    omega

theorem sum_map_indicator (n x : Nat) (hx : x < n) :
    ((List.range n).map (fun k => if k = x then 1 else 0)).sum = 1 := by
  induction n with
  | zero => omega
  | succ m ih =>
    rw [List.range_succ, List.map_append, List.sum_append]
    rcases Nat.lt_or_ge x m with h | h
    · rw [ih h]
      have hmx : m ≠ x := by omega
      simp [hmx]
    · have hxm : x = m := by omega
      have h0 : ((List.range m).map (fun k => if k = x then 1 else 0)).sum
          = 0 := by
        apply List.sum_eq_zero
        intro y hy
        rw [List.mem_map] at hy
        obtain ⟨k, hk, hke⟩ := hy
        rw [List.mem_range] at hk
        rw [← hke]
        have hkx : k ≠ x := by omega
        simp [hkx]
      rw [h0]
      simp [hxm]

theorem sum_count_range (n : Nat) : ∀ (l : List Nat), (∀ a ∈ l, a < n) →
    ((List.range n).map (fun k => l.count k)).sum = l.length := by
  intro l
  induction l with
  | nil => intro _; simp
  | cons x xs ih =>
    intro h
    have hx : x < n := h x (List.mem_cons_self x xs)
    have h1 : ∀ a ∈ xs, a < n := fun a ha => h a (List.mem_cons_of_mem x ha)
    have e1 : (List.range n).map (fun k => (x :: xs).count k)
        = (List.range n).map (fun k => xs.count k + if k = x then 1 else 0)
        := by
      apply List.map_congr_left
      intro k _
      rw [List.count_cons]
      rcases eq_or_ne k x with he | he
      · subst he
        simp
      · simp [he, Ne.symm he]
    rw [e1, sum_map_add_nat, ih h1, sum_map_indicator n x hx,
      List.length_cons]

/-- The sum of all per-child counts is the whole range when every
assignment is a valid child index. -/
theorem childStartL_total (asg0 : List Nat) (n : Nat)
    (h : ∀ a ∈ asg0, a < n) : childStartL asg0 0 n = asg0.length := by
  rw [childStartL, Nat.zero_add]
  exact sum_count_range n asg0 h

theorem childStartL_le (asg0 : List Nat) (i : Nat) :
    ∀ d, childStartL asg0 0 i ≤ childStartL asg0 0 (i + d) := by
  intro d
  induction d with
  | zero => exact le_refl _
  | succ m ih => exact ih.trans (childStartL_mono asg0 (i + m))

/-- Spec-side definition, written from the spec's words for claim C4: a
*stable* count sort by child index concatenates, child index by child index,
the columns routed to that child in their original relative order. -/
def stableCountSortSpec (numCh : Nat) (asg : List Nat)
    (cols : List (List ℚ)) : List (List ℚ) :=
  ((List.range numCh).map (fun i =>
    ((asg.zip cols).filter (fun p => p.1 == i)).map (fun p => p.2))).flatten

/-- **C4 (amended).** What the in-place partition (lines 228–241, the
per-child passes run once per split with the recursive child training
stripped out) really guarantees: it permutes the range content, advances the
cursor from `begin` to `begin + count`, and groups the columns by child
index — the slice `[childStartL j, childStartL (j+1))` holds, as a
*multiset*, exactly the columns assigned to child `j`.  It is *not* the
stable count sort the spec claims: samples of one child need not keep their
original relative order (see the counterexample). -/
theorem claim_C4_amended (b c numCh : Nat) (counts : List Nat) (s : LoopSt)
    (C0 : List Item)
    (ha : s.asg.length = c) (hd : b + c ≤ s.st.data.length)
    (hr : b + c ≤ s.st.resp.length) (hcur : s.cur = b)
    (hC : contentList s.asg s.st b c = C0)
    (hall : ∀ a ∈ s.asg, a < numCh) :
    ((↑(contentList (splitLoop idChild b c counts (List.range numCh) s).asg
        (splitLoop idChild b c counts (List.range numCh) s).st b c) :
      Multiset Item) = (↑C0 : Multiset Item)) ∧
    (splitLoop idChild b c counts (List.range numCh) s).cur = b + c ∧
    (∀ j, j < numCh →
      (↑(((contentList (splitLoop idChild b c counts (List.range numCh) s).asg
          (splitLoop idChild b c counts (List.range numCh) s).st b c).drop
            (childStartL s.asg 0 j)).take
          (childStartL s.asg 0 (j + 1) - childStartL s.asg 0 j)) :
        Multiset Item)
        = Multiset.filter (fun x => x.1 = j) (↑C0 : Multiset Item)) := by
  rw [List.range_eq_range']
  have hC0 : C0.map (fun x => x.1) = s.asg := by
    rw [← hC]
    exact contentList_map_fst s.asg s.st b c ha
  have htot : childStartL s.asg 0 numCh = c := by
    rw [childStartL_total s.asg numCh hall, ha]
  have hcur0 : s.cur = b + childStartL s.asg 0 0 := by
    rw [hcur]
    simp [childStartL]
  have hps0 : childStartL s.asg 0 0 ≤ c := by simp [childStartL]
  have hperm0 : (↑(contentList s.asg s.st b c) : Multiset Item) =
      (↑C0 : Multiset Item) := by rw [hC]
  have hsuf0 : (↑((contentList s.asg s.st b c).drop (childStartL s.asg 0 0)) :
      Multiset Item)
      = Multiset.filter (fun x : Item => (0 : Nat) ≤ x.1)
          (↑C0 : Multiset Item) := by
    have e0 : childStartL s.asg 0 0 = 0 := by simp [childStartL]
    rw [e0, List.drop_zero, hC]
    exact (Multiset.filter_eq_self.mpr
      (fun (x : Item) _ => Nat.zero_le x.1)).symm
  have hmain := idLoop_grouped b c counts s.asg C0 hC0 numCh 0 s ha hd hr
    hcur0 hps0 hperm0 hsuf0
  obtain ⟨n1, -, -, n4, n5, n6, -, -, n9⟩ := hmain
  rw [Nat.zero_add] at n4 n5
  set CF := contentList
    (splitLoop idChild b c counts (List.range' 0 numCh) s).asg
    (splitLoop idChild b c counts (List.range' 0 numCh) s).st b c with hCF
  have hlenCF : CF.length = c := by
    rw [hCF]
    exact contentList_length _ _ _ _
  refine ⟨n6, by rw [n4, htot], ?_⟩
  intro j hj
  have hST : childStartL s.asg 0 j ≤ childStartL s.asg 0 (j + 1) :=
    childStartL_mono s.asg j
  have hT : childStartL s.asg 0 (j + 1) ≤ CF.length := by
    rw [hlenCF]
    have h7 := childStartL_le s.asg (j + 1) (numCh - (j + 1))
    have e : j + 1 + (numCh - (j + 1)) = numCh := by omega
    rw [e, htot] at h7
    exact h7
  have hpos : ∀ (k : Nat) (hk : k < CF.length),
      (fun x : Item => decide (x.1 = j)) CF[k] = true ↔
        (childStartL s.asg 0 j ≤ k ∧ k < childStartL s.asg 0 (j + 1)) := by
    intro k hk
    simp only [decide_eq_true_eq]
    have hkc : k < c := by rw [← hlenCF]; exact hk
    constructor
    · intro hkey
      rcases Nat.lt_or_ge k (childStartL s.asg 0 j) with h1 | h1
      · exfalso
        obtain ⟨t, ht1, ht2, ht3⟩ := childStartL_cover s.asg j k h1
        have h5 := n9 t (Nat.zero_le t) (by omega) k ht2 ht3
        rw [List.getD_eq_getElem _ _ hk] at h5
        rw [hkey] at h5
        omega
      · rcases Nat.lt_or_ge k (childStartL s.asg 0 (j + 1)) with h2 | h2
        · exact ⟨h1, h2⟩
        · exfalso
          have hkcov : k < childStartL s.asg 0 numCh := by
            rw [htot]
            exact hkc
          obtain ⟨t, ht1, ht2, ht3⟩ := childStartL_cover s.asg numCh k hkcov
          have hjt : j < t := by
            by_contra hcon
            push_neg at hcon
            have h6 : childStartL s.asg 0 (t + 1) ≤
                childStartL s.asg 0 (j + 1) := by
              have h7 := childStartL_le s.asg (t + 1) (j - t)
              have e : t + 1 + (j - t) = j + 1 := by omega
              rw [e] at h7
              exact h7
            omega
          have h5 := n9 t (Nat.zero_le t) (by omega) k ht2 ht3
          rw [List.getD_eq_getElem _ _ hk] at h5
          rw [hkey] at h5
          omega
    · rintro ⟨h1, h2⟩
      have h5 := n9 j (Nat.zero_le j) (by omega) k h1 h2
      rw [List.getD_eq_getElem _ _ hk] at h5
      exact h5
  have hfs := @filter_eq_slice Item CF (fun x : Item => decide (x.1 = j))
    (childStartL s.asg 0 j) (childStartL s.asg 0 (j + 1)) hST hT hpos
  rw [← hfs, ← n6]
  rw [Multiset.filter_coe]

/-- The dataset of the C4 counterexample: four two-entry columns whose first
row (the split dimension) carries the category codes `1, 2, 1, 0` and whose
second row tags the original column order `0, 1, 2, 3`. -/
def c4State : DState :=
  ⟨[[1, 0], [2, 1], [1, 2], [0, 3]], [10, 20, 10, 0], []⟩

/-- Dataset info for the C4 counterexample: one categorical dimension with
three category mappings. -/
def c4Info : DatasetInfo := ⟨1, fun _ => .categorical, fun _ => 3⟩

/-- **C1.** The contiguous column ranges assigned to the children of a
split are pairwise disjoint and union to exactly the parent's range
`[begin, begin + count)`: (1) with the recursive `Train` itself as the child
trainer, the running column cursor of the per-child partition loop advances
from `begin` to `begin + count`; (2) each child `i` is trained on the
contiguous range `[currentChildBegin, currentCol)` whose bounds are the
partial sums `[b + Σ_{k<i} count_k, b + Σ_{k<i} count_k + count_i)` —
consecutive intervals, hence pairwise disjoint with union exactly the
parent's range. -/
theorem claim_C1 (ns cs : Splitter) (info : DatasetInfo) (gainFn : GainFn)
    (mls : Nat) (mgs : ℚ) (d : Nat) (st : DState) (b c : Nat)
    (fi : Option FeatureImportance) (acc : ℚ) (kids : List XGBTree)
    (asg : List Nat) (numCh : Nat) (counts : List Nat)
    (ha : asg.length = c) (hval : ∀ a ∈ asg, a < numCh)
    (hd : b + c ≤ st.data.length) (hr : b + c ≤ st.resp.length) :
    (splitLoop
        (fun st' b' c' fi'' => Train ns cs info gainFn mls mgs d st' b' c' fi'')
        b c counts (List.range' 0 numCh) ⟨asg, st, b, fi, acc, kids⟩).cur
      = b + c ∧
    (splitLoop recorderChild b c counts (List.range' 0 numCh)
        ⟨asg, st, b, fi, acc, []⟩).children
      = (List.range' 0 numCh).map (fun i =>
          XGBTree.mk [] (.pred 0) 0
            [(childStartL asg b i : ℚ), (asg.count i : ℚ)] 0) := by
  constructor
  · have hloop := splitLoop_spec b c counts
      (fun st' b' c' fi'' => Train ns cs info gainFn mls mgs d st' b' c' fi'')
      (fun st' bb cc fi' h1 h2 h3 h4 =>
        Train_pres ns cs info gainFn mls mgs d st' bb cc fi'
          (le_trans h2 h3) (le_trans h2 h4))
      (↑asg) numCh 0 ⟨asg, st, b, fi, acc, kids⟩ ha hd hr (le_refl b)
      (Nat.le_add_right b c)
      (by
        simp only
        simp only [Nat.sub_self, List.drop_zero]
        symm
        rw [Multiset.filter_eq_self]
        intro a _
        exact Nat.zero_le a)
    have hempty : Multiset.filter (fun a => 0 + numCh ≤ a)
        ((↑asg) : Multiset Nat) = 0 := by
      rw [Multiset.filter_eq_nil]
      intro a hmem
      have := hval a (by simpa using hmem)
      omega
    have hsuffix := hloop.suffix_inv
    rw [hempty, Multiset.coe_eq_zero] at hsuffix
    have h3 := List.drop_eq_nil_iff.mp hsuffix
    have hlen := hloop.len_asg
    have h1 := hloop.cur_ge
    have h2 := hloop.cur_le
    omega
  · have hrec := recorder_loop b c counts numCh 0 ⟨asg, st, b, fi, acc, []⟩
      (↑asg) ha hd hr (le_refl b) (Nat.le_add_right b c)
      (by
        simp only
        simp only [Nat.sub_self, List.drop_zero]
        symm
        rw [Multiset.filter_eq_self]
        intro a _
        exact Nat.zero_le a)
    rw [hrec]
    simp only [List.nil_append]
    apply List.map_congr_left
    intro k _
    have e1 : (⟨asg, st, b, fi, acc, []⟩ : LoopSt).cur +
        ((List.range' 0 (k - 0)).map
          (fun j => Multiset.count j ((↑asg) : Multiset Nat))).sum
        = childStartL asg b k := by
      simp only [Nat.sub_zero]
      rw [childStartL, ← List.range_eq_range']
      congr 1
      congr 1
      apply List.map_congr_left
      intro j _
      exact Multiset.coe_count j asg
    have e2 : Multiset.count k ((↑asg) : Multiset Nat) = asg.count k :=
      Multiset.coe_count k asg
    rw [e1, e2]

/-! ### Concrete instances for witnesses and counterexamples -/

/-- The categorical evaluator paired with the squared-error gain, the
combination `AllCategoricalSplit<MSEGain>` used by `XGBTree`. -/
def exSplitter : Splitter := allCategoricalSplit mseGain

theorem claim_C1_witness :
    ((([1, 0] : List Nat).length = 2 ∧ (∀ a ∈ ([1, 0] : List Nat), a < 2) ∧
      0 + 2 ≤ (DState.mk [[1], [0]] [5, 7] [1, 2]).data.length ∧
      0 + 2 ≤ (DState.mk [[1], [0]] [5, 7] [1, 2]).resp.length) ∧
     ((splitLoop
         (fun st' b' c' fi'' =>
           Train exSplitter exSplitter
             ⟨1, fun _ => .categorical, fun _ => 2⟩ mseGain 1 0 0 st' b' c'
             fi'')
         0 2 [1, 1] (List.range' 0 2)
         ⟨[1, 0], DState.mk [[1], [0]] [5, 7] [1, 2], 0, none, 0, []⟩).cur
        = 0 + 2 ∧
      (splitLoop recorderChild 0 2 [1, 1] (List.range' 0 2)
         ⟨[1, 0], DState.mk [[1], [0]] [5, 7] [1, 2], 0, none, 0, []⟩).children
        = (List.range' 0 2).map (fun i =>
            XGBTree.mk [] (.pred 0) 0
              [(childStartL [1, 0] 0 i : ℚ),
               (([1, 0] : List Nat).count i : ℚ)] 0))) :=
  ⟨⟨by decide, by decide, by decide, by decide⟩,
    claim_C1 exSplitter exSplitter ⟨1, fun _ => .categorical, fun _ => 2⟩
      mseGain 1 0 0 (DState.mk [[1], [0]] [5, 7] [1, 2]) 0 2 none 0 []
      [1, 0] 2 [1, 1] (by decide) (by decide) (by decide) (by decide)⟩

/-- A one-dimensional categorical dataset descriptor with two category
codes. -/
def exInfo : DatasetInfo := ⟨1, fun _ => .categorical, fun _ => 2⟩

/-- Two samples with category codes `1` and `0`, responses `5` and `7`, and
distinguishable weights `1` and `2`. -/
def exState : DState := ⟨[[1], [0]], [5, 7], [1, 2]⟩

/-! ### Claims -/

/-- **C2.** For every call of `Train` on a range `[begin, begin+count)` lying
inside the dataset, the in-place partition only reorders columns: the
multiset of (feature-column, response) pairs over that range is the same
before and after, because feature-matrix columns and response entries are
always swapped together at the same pair of indices. -/
theorem claim_C2 (ns cs : Splitter) (info : DatasetInfo) (gainFn : GainFn)
    (mls : Nat) (mgs : ℚ) (d : Nat) (st : DState) (b c : Nat)
    (fi : Option FeatureImportance)
    (hd : b + c ≤ st.data.length) (hr : b + c ≤ st.resp.length) :
    ((pairList (Train ns cs info gainFn mls mgs d st b c fi).st b c :
        List (List ℚ × ℚ)) : Multiset (List ℚ × ℚ)) =
      ((pairList st b c : List (List ℚ × ℚ)) : Multiset (List ℚ × ℚ)) :=
  (Train_pres ns cs info gainFn mls mgs d st b c fi hd hr).pairs_eq

theorem claim_C2_witness :
    ((0 + 2 ≤ exState.data.length ∧ 0 + 2 ≤ exState.resp.length) ∧
      ((pairList (Train exSplitter exSplitter exInfo mseGain 1 0 3 exState 0 2
          none).st 0 2 : List (List ℚ × ℚ)) : Multiset (List ℚ × ℚ)) =
        ((pairList exState 0 2 : List (List ℚ × ℚ)) :
          Multiset (List ℚ × ℚ))) :=
  ⟨⟨by decide, by decide⟩,
    claim_C2 exSplitter exSplitter exInfo mseGain 1 0 3 exState 0 2 none
      (by decide) (by decide)⟩

/-- **C5 (amended).** The partition step never reorders the weight vector:
`Train` swaps only the assignment row, the feature columns and the response
entries (source lines 236–239), so the weight vector after any `Train` call
is exactly the weight vector before it. -/
theorem claim_C5_amended (ns cs : Splitter) (info : DatasetInfo)
    (gainFn : GainFn) (mls : Nat) (mgs : ℚ) (d : Nat) (st : DState)
    (b c : Nat) (fi : Option FeatureImportance) :
    (Train ns cs info gainFn mls mgs d st b c fi).st.weights = st.weights :=
  Train_weights ns cs info gainFn mls mgs d st b c fi

/-- **C5 (counterexample).** The original claim — whenever the partition
swaps response entries it performs the same swap on the weight vector, so
the per-sample (response, weight) association is preserved — is false: this
concrete `Train` run swaps the two responses but leaves the weight vector
untouched, destroying the association. -/
theorem claim_C5_counterexample :
    (Train exSplitter exSplitter exInfo mseGain 1 0 3 exState 0 2
        none).st.resp = [7, 5] ∧
    (Train exSplitter exSplitter exInfo mseGain 1 0 3 exState 0 2
        none).st.weights = [1, 2] ∧
    ¬ ((((Train exSplitter exSplitter exInfo mseGain 1 0 3 exState 0 2
          none).st.resp.zip
        (Train exSplitter exSplitter exInfo mseGain 1 0 3 exState 0 2
          none).st.weights : List (ℚ × ℚ)) : Multiset (ℚ × ℚ)) =
      ((exState.resp.zip exState.weights : List (ℚ × ℚ)) :
        Multiset (ℚ × ℚ))) :=
  ⟨by with_unfolding_all decide, by with_unfolding_all decide,
    by with_unfolding_all decide⟩

/-- **C4 (counterexample).** The original claim — the in-place partition is
a *stable* count sort by child index, samples routed to the same child
keeping their original relative order — is false: with category codes
`1, 2, 1, 0` the selection-swap partition delivers the two columns of child
`1` in the order `[1, 2]`, `[1, 0]` (swapped), while the stable count sort
of the spec delivers them in their original order `[1, 0]`, `[1, 2]`. -/
theorem claim_C4_counterexample :
    (Train exSplitter exSplitter c4Info mseGain 1 0 2 c4State 0 4
        none).st.data = [[0, 3], [1, 2], [1, 0], [2, 1]] ∧
    stableCountSortSpec 3 (childAssign exSplitter c4State 0 4 0 [(3 : ℚ)])
        c4State.data = [[0, 3], [1, 0], [1, 2], [2, 1]] ∧
    ¬ ((Train exSplitter exSplitter c4Info mseGain 1 0 2 c4State 0 4
          none).st.data =
        stableCountSortSpec 3 (childAssign exSplitter c4State 0 4 0 [(3 : ℚ)])
          c4State.data) :=
  ⟨by with_unfolding_all decide, by with_unfolding_all decide,
    by with_unfolding_all decide⟩

/-- The C4 witness loop state: cursor at the range base, the assignment row
computed from `c4State`, no children yet. -/
def c4Loop : LoopSt := ⟨[1, 2, 1, 0], c4State, 0, none, 0, []⟩

/-- The range content of `c4Loop` spelled out. -/
def c4C0 : List Item :=
  [(1, [1, 0], 10), (2, [2, 1], 20), (1, [1, 2], 10), (0, [0, 3], 0)]

theorem claim_C4_witness :
    (c4Loop.asg.length = 4 ∧ contentList c4Loop.asg c4Loop.st 0 4 = c4C0) ∧
    (splitLoop idChild 0 4 [1, 2, 1] (List.range 3) c4Loop).cur = 0 + 4 :=
  ⟨⟨by with_unfolding_all decide, by with_unfolding_all decide⟩,
    (claim_C4_amended 0 4 3 [1, 2, 1] c4Loop c4C0
      (by with_unfolding_all decide) (by with_unfolding_all decide)
      (by with_unfolding_all decide) (by with_unfolding_all decide)
      (by with_unfolding_all decide) (by with_unfolding_all decide)).2.1⟩

/-- The dimension scan either leaves its accumulator untouched or reports a
best dimension that is one of the scanned dimensions. -/
theorem dimScan_cases (ns cs : Splitter) (info : DatasetInfo) (st : DState)
    (b c : Nat) (mls : Nat) (mgs : ℚ) :
    ∀ (is : List Nat) (acc : ℚ × Nat × List ℚ),
      dimScan ns cs info st b c mls mgs is acc = acc ∨
        (dimScan ns cs info st b c mls mgs is acc).2.1 ∈ is := by
  intro is
  induction is with
  | nil => intro acc; exact Or.inl rfl
  | cons i rest ih =>
    intro acc
    obtain ⟨bg, bd, si⟩ := acc
    cases htype : info.type i with
    | categorical =>
      simp only [dimScan, htype]
      cases hres : cs.splitIfBetter bg (dimRow st b c i) (respRange st b c)
          st.weights (info.numMappings i) mls mgs with
      | none =>
        dsimp only
        rcases ih (bg, bd, si) with h | h
        · exact Or.inl h
        · exact Or.inr (List.mem_cons_of_mem i h)
      | some gs =>
        obtain ⟨g, si'⟩ := gs
        dsimp only
        by_cases hg : (0 : ℚ) ≤ g
        · rw [if_pos hg]
          exact Or.inr (List.mem_cons_self i rest)
        · rw [if_neg hg]
          rcases ih (g, i, si') with h | h
          · rw [h]
            exact Or.inr (List.mem_cons_self i rest)
          · exact Or.inr (List.mem_cons_of_mem i h)
    | numeric =>
      simp only [dimScan, htype]
      cases hres : ns.splitIfBetter bg (dimRow st b c i) (respRange st b c)
          st.weights (info.numMappings i) mls mgs with
      | none =>
        dsimp only
        rcases ih (bg, bd, si) with h | h
        · exact Or.inl h
        · exact Or.inr (List.mem_cons_of_mem i h)
      | some gs =>
        obtain ⟨g, si'⟩ := gs
        dsimp only
        by_cases hg : (0 : ℚ) ≤ g
        · rw [if_pos hg]
          exact Or.inr (List.mem_cons_self i rest)
        · rw [if_neg hg]
          rcases ih (g, i, si') with h | h
          · rw [h]
            exact Or.inr (List.mem_cons_self i rest)
          · exact Or.inr (List.mem_cons_of_mem i h)

/-- When the scan reports "no split" (`bestDim = datasetInfo.Dimensionality`)
the running `bestGain` was never overwritten: it is still the initial
`Evaluate` of the whole range. -/
theorem trainScan_leaf (ns cs : Splitter) (info : DatasetInfo)
    (gainFn : GainFn) (mls : Nat) (mgs : ℚ) (d : Nat) (st : DState)
    (b c : Nat)
    (h : (trainScan ns cs info gainFn mls mgs d st b c).2.1 = info.dims) :
    (trainScan ns cs info gainFn mls mgs d st b c).1 =
      gainFn.evaluate (respRange st b c) st.weights := by
  by_cases hd : d ≠ 0
  · rw [trainScan, if_pos hd] at h ⊢
    rcases dimScan_cases ns cs info st b c mls mgs (List.range info.dims)
      (gainFn.evaluate (respRange st b c) st.weights, info.dims, []) with
      h1 | h1
    · rw [h1]
    · rw [h] at h1
      rw [List.mem_range] at h1
      omega
  · rw [trainScan, if_neg hd]

/-- `Train` returns the negation of the `nodeGain` it caches on the node it
builds (`nodeGain = bestGain; return -bestGain`, lines 264–265). -/
theorem Train_ret (ns cs : Splitter) (info : DatasetInfo) (gainFn : GainFn)
    (mls : Nat) (mgs : ℚ) (d : Nat) (st : DState) (b c : Nat)
    (fi : Option FeatureImportance) :
    (Train ns cs info gainFn mls mgs d st b c fi).ret =
      -(Train ns cs info gainFn mls mgs d st b c fi).tree.nodeGain := by
  cases d with
  | zero => rfl
  | succ d =>
    rw [Train_succ]
    by_cases hbd : (trainScan ns cs info gainFn mls mgs d st b c).2.1 ≠
        info.dims
    · rw [if_pos hbd]
      rfl
    · rw [if_neg hbd]
      rfl

/-- The accumulator of the per-child loop: provided every child trainer
returns the negation of the `nodeGain` it caches, the loop appends one child
per index and accumulates `Σ childCounts[i]/count * (-childGain)`, i.e.
`Σ childCounts[i]/count * child.nodeGain`. -/
theorem splitLoop_acc (b c : Nat) (counts : List Nat)
    (tc : DState → Nat → Nat → Option FeatureImportance → TrainResult)
    (hret : ∀ st bb cc fi, (tc st bb cc fi).ret
      = -(tc st bb cc fi).tree.nodeGain) :
    ∀ (idxs : List Nat) (s : LoopSt),
      ∃ newKids : List XGBTree,
        newKids.length = idxs.length ∧
        (splitLoop tc b c counts idxs s).children = s.children ++ newKids ∧
        (splitLoop tc b c counts idxs s).acc = s.acc +
          ((idxs.zip newKids).map
            (fun p => (counts.getD p.1 0 : ℚ) / (c : ℚ) *
              p.2.nodeGain)).sum := by
  intro idxs
  induction idxs with
  | nil =>
    intro s
    refine ⟨[], rfl, ?_, ?_⟩
    · simp [splitLoop]
    · simp [splitLoop]
  | cons i rest ih =>
    intro s
    simp only [splitLoop]
    obtain ⟨nk, h0, h1, h2⟩ := ih
      ⟨(innerPass b c i s.asg s.st s.cur).1,
       (tc (innerPass b c i s.asg s.st s.cur).2.1 s.cur
         ((innerPass b c i s.asg s.st s.cur).2.2 - s.cur) s.fi).st,
       (innerPass b c i s.asg s.st s.cur).2.2,
       (tc (innerPass b c i s.asg s.st s.cur).2.1 s.cur
         ((innerPass b c i s.asg s.st s.cur).2.2 - s.cur) s.fi).fi,
       s.acc + (counts.getD i 0 : ℚ) / (c : ℚ) *
         (-(tc (innerPass b c i s.asg s.st s.cur).2.1 s.cur
           ((innerPass b c i s.asg s.st s.cur).2.2 - s.cur) s.fi).ret),
       s.children ++ [(tc (innerPass b c i s.asg s.st s.cur).2.1 s.cur
         ((innerPass b c i s.asg s.st s.cur).2.2 - s.cur) s.fi).tree]⟩
    refine ⟨(tc (innerPass b c i s.asg s.st s.cur).2.1 s.cur
      ((innerPass b c i s.asg s.st s.cur).2.2 - s.cur) s.fi).tree :: nk,
      ?_, ?_, ?_⟩
    · simp [h0]
    · rw [h1]
      simp
    · rw [h2]
      simp only [List.zip_cons_cons, List.map_cons, List.sum_cons]
      rw [hret]
      ring

/-- **C3.** The sign and caching conventions of `Train`, with the leaf value
corrected: (1) `Train` always returns `-nodeGain` of the node it builds;
(2) the cached `nodeGain` of a node that became a leaf directly (the scan
committed no split) is the initial `Evaluate` of the node's response range —
the negated MSE impurity, *not* `0` as the spec claims (see the
counterexample); (3) the cached `nodeGain` of an internal node is
`Σ childCounts[i]/count * (-childGain)` over its children, where
`-childGain` — by (1) — is exactly the child's cached `nodeGain`. -/
theorem claim_C3 (ns cs : Splitter) (info : DatasetInfo) (gainFn : GainFn)
    (mls : Nat) (mgs : ℚ) :
    (∀ (d : Nat) (st : DState) (b c : Nat) (fi : Option FeatureImportance),
      (Train ns cs info gainFn mls mgs d st b c fi).ret =
        -(Train ns cs info gainFn mls mgs d st b c fi).tree.nodeGain) ∧
    (∀ (d : Nat) (st : DState) (b c : Nat) (fi : Option FeatureImportance),
      (trainScan ns cs info gainFn mls mgs d st b c).2.1 = info.dims →
      (Train ns cs info gainFn mls mgs (d + 1) st b c fi).tree.nodeGain =
        gainFn.evaluate (respRange st b c) st.weights) ∧
    (∀ (d : Nat) (st : DState) (b c : Nat) (fi : Option FeatureImportance),
      (trainScan ns cs info gainFn mls mgs d st b c).2.1 ≠ info.dims →
      (Train ns cs info gainFn mls mgs (d + 1) st b c
            fi).tree.children.length =
        (trainSplitter ns cs info
            (trainScan ns cs info gainFn mls mgs d st b c).2.1).numChildren
          (trainScan ns cs info gainFn mls mgs d st b c).2.2 ∧
      (Train ns cs info gainFn mls mgs (d + 1) st b c fi).tree.nodeGain =
        (((List.range ((trainSplitter ns cs info
              (trainScan ns cs info gainFn mls mgs d st b c).2.1).numChildren
            (trainScan ns cs info gainFn mls mgs d st b c).2.2)).zip
            (Train ns cs info gainFn mls mgs (d + 1) st b c
              fi).tree.children).map
          (fun p =>
            ((childAssign (trainSplitter ns cs info
                  (trainScan ns cs info gainFn mls mgs d st b c).2.1) st b c
                (trainScan ns cs info gainFn mls mgs d st b c).2.1
                (trainScan ns cs info gainFn mls mgs d st b c).2.2).countP
                (· == p.1) : ℚ) / (c : ℚ) * p.2.nodeGain)).sum) := by
  refine ⟨fun d st b c fi => Train_ret ns cs info gainFn mls mgs d st b c fi,
    ?_, ?_⟩
  · intro d st b c fi h
    have hbd : ¬ ((trainScan ns cs info gainFn mls mgs d st b c).2.1 ≠
        info.dims) := by simp [h]
    rw [Train_succ, if_neg hbd]
    simp only [XGBTree.nodeGain]
    exact trainScan_leaf ns cs info gainFn mls mgs d st b c h
  · intro d st b c fi h
    rw [Train_succ, if_pos h]
    simp only
    set bd := (trainScan ns cs info gainFn mls mgs d st b c).2.1 with hbdd
    set siX := (trainScan ns cs info gainFn mls mgs d st b c).2.2 with hsix
    set sp := trainSplitter ns cs info bd with hspd
    set asg := childAssign sp st b c bd siX with hasg
    set nch := sp.numChildren siX with hnch
    set fi2 := fi.map (fun f =>
      increaseFeatureCover (increaseFeatureFrequency f bd 1) bd
        (trainScan ns cs info gainFn mls mgs d st b c).1) with hfi2
    obtain ⟨nk, h0, h1, h2⟩ := splitLoop_acc b c
      ((List.range nch).map (fun i => asg.countP (· == i)))
      (fun st' b' c' fi'' => Train ns cs info gainFn mls mgs d st' b' c' fi'')
      (fun st' bb cc fi' => Train_ret ns cs info gainFn mls mgs d st' bb cc
        fi')
      (List.range nch) ⟨asg, st, b, fi2, 0, []⟩
    constructor
    · simp only [XGBTree.children]
      rw [h1, List.nil_append, h0, List.length_range]
    · simp only [XGBTree.nodeGain, XGBTree.children]
      rw [h1, List.nil_append, h2, zero_add]
      congr 1
      apply List.map_congr_left
      rintro ⟨p1, p2⟩ hp
      obtain ⟨hp1, -⟩ := List.of_mem_zip hp
      rw [List.mem_range] at hp1
      simp only
      rw [List.getD_eq_getElem _ _ (by simpa using hp1)]
      simp only [List.getElem_map, List.getElem_range]
      rfl

/-- **C3 (counterexample).** The original claim — a node that became a leaf
directly has cached `nodeGain = 0` — is false: this depth-1 `Train` run
builds a direct leaf (the scan is skipped, no split qualifies) whose cached
`nodeGain` is the initial `Evaluate` of the range, `-1`, not `0`. -/
theorem claim_C3_counterexample :
    (Train exSplitter exSplitter exInfo mseGain 1 0 1 exState 0 2
        none).tree.children = [] ∧
    (Train exSplitter exSplitter exInfo mseGain 1 0 1 exState 0 2
        none).tree.nodeGain = -1 ∧
    ¬ ((Train exSplitter exSplitter exInfo mseGain 1 0 1 exState 0 2
        none).tree.nodeGain = 0) :=
  ⟨by with_unfolding_all rfl, by with_unfolding_all decide,
    by with_unfolding_all decide⟩

theorem claim_C3_witness :
    ((trainScan exSplitter exSplitter exInfo mseGain 1 0 0 exState 0 2).2.1 =
        exInfo.dims ∧
      (Train exSplitter exSplitter exInfo mseGain 1 0 1 exState 0 2
          none).tree.nodeGain =
        mseGain.evaluate (respRange exState 0 2) exState.weights) ∧
    ((trainScan exSplitter exSplitter exInfo mseGain 1 0 2 exState 0 2).2.1 ≠
        exInfo.dims ∧
      (Train exSplitter exSplitter exInfo mseGain 1 0 3 exState 0 2
          none).tree.children.length =
        (trainSplitter exSplitter exSplitter exInfo
            (trainScan exSplitter exSplitter exInfo mseGain 1 0 2 exState 0
              2).2.1).numChildren
          (trainScan exSplitter exSplitter exInfo mseGain 1 0 2 exState 0
            2).2.2) :=
  ⟨⟨by with_unfolding_all decide,
    (claim_C3 exSplitter exSplitter exInfo mseGain 1 0).2.1 0 exState 0 2
      none (by with_unfolding_all decide)⟩,
  ⟨by with_unfolding_all decide,
    ((claim_C3 exSplitter exSplitter exInfo mseGain 1 0).2.2 2 exState 0 2
      none (by with_unfolding_all decide)).1⟩⟩

/-- A depth-1 `Train` call never touches the importance sink: the scan is
skipped, no split is committed, and `featImp` is only dereferenced on the
split path (lines 188–192). -/
theorem Train_depth1_fi (ns cs : Splitter) (info : DatasetInfo)
    (gainFn : GainFn) (mls : Nat) (mgs : ℚ) (st : DState) (b c : Nat)
    (fi : Option FeatureImportance) :
    (Train ns cs info gainFn mls mgs 1 st b c fi).fi = fi := by
  have hscan : trainScan ns cs info gainFn mls mgs 0 st b c =
      (gainFn.evaluate (respRange st b c) st.weights, info.dims, []) := by
    rw [trainScan]
    simp
  rw [show (1 : Nat) = 0 + 1 from rfl, Train_succ, hscan]
  simp

/-- If the child trainer leaves the sink untouched, so does the whole
per-child loop. -/
theorem splitLoop_fi_const (b c : Nat) (counts : List Nat)
    (tc : DState → Nat → Nat → Option FeatureImportance → TrainResult)
    (htc : ∀ st bb cc fi, (tc st bb cc fi).fi = fi) :
    ∀ (idxs : List Nat) (s : LoopSt),
      (splitLoop tc b c counts idxs s).fi = s.fi := by
  intro idxs
  induction idxs with
  | nil => intro s; rfl
  | cons i rest ih =>
    intro s
    simp only [splitLoop]
    rw [ih]
    exact htc _ _ _ _

/-- If the child trainer maps a null sink to a null sink, the per-child loop
keeps a null sink null. -/
theorem splitLoop_fi_none (b c : Nat) (counts : List Nat)
    (tc : DState → Nat → Nat → Option FeatureImportance → TrainResult)
    (htc : ∀ st bb cc, (tc st bb cc none).fi = none) :
    ∀ (idxs : List Nat) (s : LoopSt), s.fi = none →
      (splitLoop tc b c counts idxs s).fi = none := by
  intro idxs
  induction idxs with
  | nil => intro s h; exact h
  | cons i rest ih =>
    intro s h
    simp only [splitLoop]
    apply ih
    simp only
    rw [h, htc]

/-- `Train` with a null sink keeps the sink null at every depth. -/
theorem Train_fi_none (ns cs : Splitter) (info : DatasetInfo)
    (gainFn : GainFn) (mls : Nat) (mgs : ℚ) :
    ∀ (d : Nat) (st : DState) (b c : Nat),
      (Train ns cs info gainFn mls mgs d st b c none).fi = none := by
  intro d
  induction d with
  | zero => intro st b c; rfl
  | succ d ih =>
    intro st b c
    rw [Train_succ]
    by_cases hbd : (trainScan ns cs info gainFn mls mgs d st b c).2.1 ≠
        info.dims
    · rw [if_pos hbd]
      refine splitLoop_fi_none b c _ _ (fun st' bb cc => ih st' bb cc) _ _
        ?_
      rfl
    · rw [if_neg hbd]

/-- If the child trainer's tree, state and return value do not depend on the
sink, neither do the loop's assignment row, state, cursor, accumulator and
children. -/
theorem splitLoop_fi_indep (b c : Nat) (counts : List Nat)
    (tc : DState → Nat → Nat → Option FeatureImportance → TrainResult)
    (htc : ∀ st bb cc fi1 fi2,
      (tc st bb cc fi1).tree = (tc st bb cc fi2).tree ∧
      (tc st bb cc fi1).st = (tc st bb cc fi2).st ∧
      (tc st bb cc fi1).ret = (tc st bb cc fi2).ret) :
    ∀ (idxs : List Nat) (asg : List Nat) (st : DState) (cur : Nat) (acc : ℚ)
      (kids : List XGBTree) (fi1 fi2 : Option FeatureImportance),
      (splitLoop tc b c counts idxs ⟨asg, st, cur, fi1, acc, kids⟩).asg =
        (splitLoop tc b c counts idxs ⟨asg, st, cur, fi2, acc, kids⟩).asg ∧
      (splitLoop tc b c counts idxs ⟨asg, st, cur, fi1, acc, kids⟩).st =
        (splitLoop tc b c counts idxs ⟨asg, st, cur, fi2, acc, kids⟩).st ∧
      (splitLoop tc b c counts idxs ⟨asg, st, cur, fi1, acc, kids⟩).cur =
        (splitLoop tc b c counts idxs ⟨asg, st, cur, fi2, acc, kids⟩).cur ∧
      (splitLoop tc b c counts idxs ⟨asg, st, cur, fi1, acc, kids⟩).acc =
        (splitLoop tc b c counts idxs ⟨asg, st, cur, fi2, acc, kids⟩).acc ∧
      (splitLoop tc b c counts idxs ⟨asg, st, cur, fi1, acc, kids⟩).children =
        (splitLoop tc b c counts idxs ⟨asg, st, cur, fi2, acc,
          kids⟩).children := by
  intro idxs
  induction idxs with
  | nil =>
    intro asg st cur acc kids fi1 fi2
    exact ⟨rfl, rfl, rfl, rfl, rfl⟩
  | cons i rest ih =>
    intro asg st cur acc kids fi1 fi2
    simp only [splitLoop]
    obtain ⟨e1, e2, e3⟩ := htc (innerPass b c i asg st cur).2.1 cur
      ((innerPass b c i asg st cur).2.2 - cur) fi1 fi2
    rw [e1, e2, e3]
    exact ih _ _ _ _ _ _ _

/-- The tree built by `Train`, the reordered data state and the returned
value are independent of the sink handle. -/
theorem Train_fi_indep (ns cs : Splitter) (info : DatasetInfo)
    (gainFn : GainFn) (mls : Nat) (mgs : ℚ) :
    ∀ (d : Nat) (st : DState) (b c : Nat)
      (fi1 fi2 : Option FeatureImportance),
      (Train ns cs info gainFn mls mgs d st b c fi1).tree =
        (Train ns cs info gainFn mls mgs d st b c fi2).tree ∧
      (Train ns cs info gainFn mls mgs d st b c fi1).st =
        (Train ns cs info gainFn mls mgs d st b c fi2).st ∧
      (Train ns cs info gainFn mls mgs d st b c fi1).ret =
        (Train ns cs info gainFn mls mgs d st b c fi2).ret := by
  intro d
  induction d with
  | zero =>
    intro st b c fi1 fi2
    exact ⟨rfl, rfl, rfl⟩
  | succ d ih =>
    intro st b c fi1 fi2
    rw [Train_succ, Train_succ]
    by_cases hbd : (trainScan ns cs info gainFn mls mgs d st b c).2.1 ≠
        info.dims
    · rw [if_pos hbd, if_pos hbd]
      simp only
      set bd := (trainScan ns cs info gainFn mls mgs d st b c).2.1 with hbdd
      set siX := (trainScan ns cs info gainFn mls mgs d st b c).2.2 with hsix
      set sp := trainSplitter ns cs info bd with hspd
      set asg := childAssign sp st b c bd siX with hasg
      set nch := sp.numChildren siX with hnch
      obtain ⟨l1, l2, l3, l4, l5⟩ := splitLoop_fi_indep b c
        ((List.range nch).map (fun i => asg.countP (· == i)))
        (fun st' b' c' fi'' => Train ns cs info gainFn mls mgs d st' b' c'
          fi'')
        (fun st' bb cc f1 f2 => ih st' bb cc f1 f2)
        (List.range nch) asg st b 0 []
        (fi1.map (fun f =>
          increaseFeatureCover (increaseFeatureFrequency f bd 1) bd
            (trainScan ns cs info gainFn mls mgs d st b c).1))
        (fi2.map (fun f =>
          increaseFeatureCover (increaseFeatureFrequency f bd 1) bd
            (trainScan ns cs info gainFn mls mgs d st b c).1))
      refine ⟨?_, ?_, ?_⟩
      · rw [l4, l5]
      · rw [l2]
      · rw [l4]
    · rw [if_neg hbd, if_neg hbd]
      exact ⟨rfl, rfl, rfl⟩

/-- **C9.** The importance sink protocol of `Train`: (1) when the scan
commits no split, the sink handle passes through untouched — no sink
interaction on the leaf path; (2) on the split path the winning dimension's
frequency is increased by 1 and its cover by the winning gain (stated for
`maximumDepth = 2`, where the recursive child calls are leaves and commit no
further splits, so the sink reflects exactly the one committed split); (3) a
null sink handle is a valid no-op: it stays null at every depth, and the
tree built, the final data state and the returned value are identical to any
other sink handle's. -/
theorem claim_C9 (ns cs : Splitter) (info : DatasetInfo) (gainFn : GainFn)
    (mls : Nat) (mgs : ℚ) :
    (∀ (d : Nat) (st : DState) (b c : Nat) (fi : Option FeatureImportance),
      (trainScan ns cs info gainFn mls mgs d st b c).2.1 = info.dims →
      (Train ns cs info gainFn mls mgs (d + 1) st b c fi).fi = fi) ∧
    (∀ (st : DState) (b c : Nat) (fi : Option FeatureImportance),
      (trainScan ns cs info gainFn mls mgs 1 st b c).2.1 ≠ info.dims →
      (Train ns cs info gainFn mls mgs 2 st b c fi).fi =
        fi.map (fun f =>
          increaseFeatureCover
            (increaseFeatureFrequency f
              (trainScan ns cs info gainFn mls mgs 1 st b c).2.1 1)
            (trainScan ns cs info gainFn mls mgs 1 st b c).2.1
            (trainScan ns cs info gainFn mls mgs 1 st b c).1)) ∧
    (∀ (d : Nat) (st : DState) (b c : Nat),
      (Train ns cs info gainFn mls mgs d st b c none).fi = none) ∧
    (∀ (d : Nat) (st : DState) (b c : Nat) (fi : Option FeatureImportance),
      (Train ns cs info gainFn mls mgs d st b c fi).tree =
        (Train ns cs info gainFn mls mgs d st b c none).tree ∧
      (Train ns cs info gainFn mls mgs d st b c fi).st =
        (Train ns cs info gainFn mls mgs d st b c none).st ∧
      (Train ns cs info gainFn mls mgs d st b c fi).ret =
        (Train ns cs info gainFn mls mgs d st b c none).ret) := by
  refine ⟨?_, ?_, fun d st b c => Train_fi_none ns cs info gainFn mls mgs d
    st b c, fun d st b c fi => Train_fi_indep ns cs info gainFn mls mgs d st
    b c fi none⟩
  · intro d st b c fi h
    have hbd : ¬ ((trainScan ns cs info gainFn mls mgs d st b c).2.1 ≠
        info.dims) := by simp [h]
    rw [Train_succ, if_neg hbd]
  · intro st b c fi h
    rw [show (2 : Nat) = 1 + 1 from rfl, Train_succ, if_pos h]
    exact splitLoop_fi_const b c _ _
      (fun st' bb cc fi' => Train_depth1_fi ns cs info gainFn mls mgs st'
        bb cc fi') _ _

/-- A concrete sink for the C9 witness: all frequencies and covers zero. -/
def exFI : FeatureImportance := ⟨fun _ => 0, fun _ => 0⟩

theorem claim_C9_witness :
    ((trainScan exSplitter exSplitter exInfo mseGain 1 0 0 exState 0 2).2.1 =
        exInfo.dims ∧
      (Train exSplitter exSplitter exInfo mseGain 1 0 1 exState 0 2
          (some exFI)).fi = some exFI) ∧
    ((trainScan exSplitter exSplitter exInfo mseGain 1 0 1 exState 0 2).2.1 ≠
        exInfo.dims ∧
      (Train exSplitter exSplitter exInfo mseGain 1 0 2 exState 0 2
          (some exFI)).fi =
        (some exFI).map (fun f =>
          increaseFeatureCover
            (increaseFeatureFrequency f
              (trainScan exSplitter exSplitter exInfo mseGain 1 0 1 exState
                0 2).2.1 1)
            (trainScan exSplitter exSplitter exInfo mseGain 1 0 1 exState 0
              2).2.1
            (trainScan exSplitter exSplitter exInfo mseGain 1 0 1 exState 0
              2).1)) :=
  ⟨⟨by with_unfolding_all decide,
    (claim_C9 exSplitter exSplitter exInfo mseGain 1 0).1 0 exState 0 2
      (some exFI) (by with_unfolding_all decide)⟩,
  ⟨by with_unfolding_all decide,
    (claim_C9 exSplitter exSplitter exInfo mseGain 1 0).2.1 exState 0 2
      (some exFI) (by with_unfolding_all decide)⟩⟩

/-- **C6.** `maximumDepth = 1` always yields a single-leaf tree (zero
children) whose stored prediction is `OutputLeafValue` over the whole
training range, regardless of the data content and the hyperparameters. -/
theorem claim_C6 (ns cs : Splitter) (info : DatasetInfo) (gainFn : GainFn)
    (mls : Nat) (mgs : ℚ) (st : DState) (b c : Nat)
    (fi : Option FeatureImportance) :
    (Train ns cs info gainFn mls mgs 1 st b c fi).tree.children = [] ∧
    (Train ns cs info gainFn mls mgs 1 st b c fi).tree.slot =
      .pred (gainFn.outputLeafValue (respRange st b c) st.weights) := by
  have hscan : trainScan ns cs info gainFn mls mgs 0 st b c =
      (gainFn.evaluate (respRange st b c) st.weights, info.dims, []) := by
    rw [trainScan]
    simp
  rw [show (1 : Nat) = 0 + 1 from rfl, Train_succ, hscan]
  simp [XGBTree.children, XGBTree.slot]

/-! ### Lemmas about `Prune` -/

theorem pruneKids_nil (θ : ℚ) : pruneKids [] θ = [] := by
  rw [pruneKids]

theorem pruneKids_cons (t : XGBTree) (ts : List XGBTree) (θ : ℚ) :
    pruneKids (t :: ts) θ =
      if (Prune t θ).2 then pruneKids ts θ
      else (Prune t θ).1 :: pruneKids ts θ := by
  rw [pruneKids]

theorem Prune_fst (l : List XGBTree) (s : Slot) (dt : Nat) (si : List ℚ)
    (g θ : ℚ) :
    (Prune (.mk l s dt si g) θ).1 = .mk (pruneKids l θ) s dt si g := by
  rw [Prune]

theorem Prune_snd (t : XGBTree) (θ : ℚ) :
    (Prune t θ).2 = decide (t.nodeGain < θ) := by
  cases t with
  | mk l s dt si g => rw [Prune]; rfl

theorem Prune_nodeGain (t : XGBTree) (θ : ℚ) :
    (Prune t θ).1.nodeGain = t.nodeGain := by
  cases t with
  | mk l s dt si g => rw [Prune]; rfl

theorem Prune_slot (t : XGBTree) (θ : ℚ) :
    (Prune t θ).1.slot = t.slot := by
  cases t with
  | mk l s dt si g => rw [Prune]; rfl

theorem sizeOf_pos_tree (t : XGBTree) : 1 ≤ sizeOf t := by
  cases t with
  | mk l s dt si g =>
    simp only [XGBTree.mk.sizeOf_spec]
    omega

theorem prune_idem_aux :
    ∀ (n : Nat) (t : XGBTree), sizeOf t ≤ n → ∀ (θ : ℚ),
      Prune (Prune t θ).1 θ = Prune t θ := by
  intro n
  induction n with
  | zero =>
    intro t ht
    have := sizeOf_pos_tree t
    omega
  | succ n ih =>
    intro t ht θ
    cases t with
    | mk l s dt si g =>
      have hsz : ∀ c ∈ l, sizeOf c ≤ n := by
        intro c hc
        have h1 := @sizeOf_lt_of_mem_children c l s dt si g hc
        omega
      rw [Prune_fst, Prune, Prune]
      have hkids : pruneKids (pruneKids l θ) θ = pruneKids l θ := by
        clear ht
        induction l with
        | nil => rw [pruneKids_nil, pruneKids_nil]
        | cons c ts ihl =>
          have hc := hsz c (List.mem_cons_self c ts)
          have hts : ∀ x ∈ ts, sizeOf x ≤ n := fun x hx =>
            hsz x (List.mem_cons_of_mem c hx)
          rw [pruneKids_cons]
          by_cases hflag : (Prune c θ).2 = true
          · rw [if_pos hflag]
            exact ihl hts
          · rw [if_neg hflag, pruneKids_cons, ih c hc θ, if_neg hflag,
              ihl hts]
      rw [hkids]

/-- Helper: the head gain of `allGainsB`. -/
theorem allGainsB_head {p : ℚ → Bool} {t : XGBTree}
    (h : allGainsB p t = true) : p t.nodeGain = true := by
  cases t with
  | mk l s dt si g =>
    rw [allGainsB, Bool.and_eq_true] at h
    exact h.1

theorem allGainsList_mem {p : ℚ → Bool} {l : List XGBTree}
    (h : allGainsList p l = true) : ∀ c ∈ l, allGainsB p c = true := by
  induction l with
  | nil => intro c hc; cases hc
  | cons x ts ihl =>
    rw [allGainsList, Bool.and_eq_true] at h
    intro c hc
    rcases List.mem_cons.mp hc with h5 | h5
    · rw [h5]; exact h.1
    · exact ihl h.2 c h5

theorem allGainsB_children {p : ℚ → Bool} {l : List XGBTree} {s : Slot}
    {dt : Nat} {si : List ℚ} {g : ℚ}
    (h : allGainsB p (.mk l s dt si g) = true) :
    ∀ c ∈ l, allGainsB p c = true := by
  rw [allGainsB, Bool.and_eq_true] at h
  exact allGainsList_mem h.2

theorem prune_keep_aux :
    ∀ (n : Nat) (t : XGBTree), sizeOf t ≤ n → ∀ (θ : ℚ),
      allGainsB (fun g => decide (θ < g)) t = true →
      Prune t θ = (t, false) := by
  intro n
  induction n with
  | zero =>
    intro t ht
    have := sizeOf_pos_tree t
    omega
  | succ n ih =>
    intro t ht θ hall
    cases t with
    | mk l s dt si g =>
      have hsz : ∀ c ∈ l, sizeOf c ≤ n := by
        intro c hc
        have h1 := @sizeOf_lt_of_mem_children c l s dt si g hc
        omega
      have hg : θ < g := by
        have h1 := allGainsB_head hall
        simpa using h1
      have hch := allGainsB_children hall
      rw [Prune]
      have hkids : ∀ (l' : List XGBTree), (∀ x ∈ l', sizeOf x ≤ n) →
          (∀ x ∈ l', allGainsB (fun g => decide (θ < g)) x = true) →
          pruneKids l' θ = l' := by
        intro l'
        induction l' with
        | nil => intro _ _; rw [pruneKids_nil]
        | cons c ts ihl =>
          intro hsz' hall'
          have hc := hsz' c (List.mem_cons_self c ts)
          have hcall := hall' c (List.mem_cons_self c ts)
          rw [pruneKids_cons, ih c hc θ hcall]
          simp only [Bool.false_eq_true, if_false]
          rw [ihl (fun x hx => hsz' x (List.mem_cons_of_mem c hx))
            (fun x hx => hall' x (List.mem_cons_of_mem c hx))]
      rw [hkids l hsz hch]
      have hnot : ¬ g < θ := lt_asymm hg
      rw [decide_eq_false hnot]

theorem pruneKids_all_removed {θ : ℚ} :
    ∀ (l : List XGBTree),
      (∀ x ∈ l, allGainsB (fun g => decide (g < θ)) x = true) →
      pruneKids l θ = [] := by
  intro l
  induction l with
  | nil => intro _; rw [pruneKids_nil]
  | cons c ts ihl =>
    intro hall
    have hflag : (Prune c θ).2 = true := by
      rw [Prune_snd]
      exact allGainsB_head (hall c (List.mem_cons_self c ts))
    rw [pruneKids_cons, if_pos hflag]
    exact ihl (fun x hx => hall x (List.mem_cons_of_mem c hx))

/-- **C7.** `Prune` is idempotent: pruning a second time with the same
threshold removes no further node and leaves the tree — its structure and
every node's cached state — unchanged (the reported flag is also the
same). -/
theorem claim_C7 (t : XGBTree) (θ : ℚ) :
    Prune (Prune t θ).1 θ = Prune t θ :=
  prune_idem_aux (sizeOf t) t (le_refl _) θ

/-- **C8.** Pruning with a threshold strictly below every node's cached
`nodeGain` leaves the tree structurally unchanged (no child is detached
anywhere), and pruning with a threshold strictly above every node's cached
`nodeGain` removes all descendants, collapsing the root into a single node
with zero children. -/
theorem claim_C8 (t : XGBTree) (θlo θhi : ℚ) :
    (allGainsB (fun g => decide (θlo < g)) t = true →
      (Prune t θlo).1 = t) ∧
    (allGainsB (fun g => decide (g < θhi)) t = true →
      (Prune t θhi).1.children = []) := by
  constructor
  · intro h
    rw [prune_keep_aux (sizeOf t) t (le_refl _) θlo h]
  · intro h
    cases t with
    | mk l s dt si g =>
      rw [Prune_fst]
      rw [pruneKids_all_removed l (allGainsB_children h)]
      rfl

/-- The tree produced by `Train` on the two-sample categorical example: an
internal root splitting on dimension `0` with two leaf children. -/
def exTree : XGBTree :=
  (Train exSplitter exSplitter exInfo mseGain 1 0 3 exState 0 2 none).tree

theorem exTree_eq :
    exTree = XGBTree.mk
      [XGBTree.mk [] (.pred 7) 0 [] 0, XGBTree.mk [] (.pred 5) 0 [] 0]
      (.dim 0) 1 [2] 0 := by
  with_unfolding_all rfl

theorem claim_C8_witness :
    (allGainsB (fun g => decide ((-1 : ℚ) < g)) exTree = true ∧
      (Prune exTree (-1)).1 = exTree) ∧
    (allGainsB (fun g => decide (g < (1 : ℚ))) exTree = true ∧
      (Prune exTree 1).1.children = []) := by
  have h1 : allGainsB (fun g => decide ((-1 : ℚ) < g)) exTree = true := by
    rw [exTree_eq]
    norm_num [allGainsB, allGainsList]
  have h2 : allGainsB (fun g => decide (g < (1 : ℚ))) exTree = true := by
    rw [exTree_eq]
    norm_num [allGainsB, allGainsList]
  exact ⟨⟨h1, (claim_C8 exTree (-1) 1).1 h1⟩,
    ⟨h2, (claim_C8 exTree (-1) 1).2 h2⟩⟩

theorem Predict_leaf (ns cs : Splitter) (t : XGBTree) (pt : List ℚ)
    (h : t.children = []) : Predict ns cs t pt = t.slot := by
  cases t with
  | mk l s dt si g =>
    have hl : l = [] := h
    subst hl
    rw [Predict]
    simp [XGBTree.children]

/-- **C10.** `Predict` on any node with zero children unconditionally
returns the node's stored prediction/split-dimension union slot, without
consulting the split descriptor; in particular, for a node whose children
were all removed by `Prune` while the node itself survived, `Predict`
terminates and returns the slot still holding the stored split dimension
written during training (modelled as the tagged union value `.dim`, the
value whose bit pattern the source reinterprets as a `double`), not a leaf
value computed from training responses. -/
theorem claim_C10 (ns cs : Splitter) (t : XGBTree) (θ : ℚ) (pt : List ℚ) :
    (t.children = [] → Predict ns cs t pt = t.slot) ∧
    ((Prune t θ).1.children = [] →
      Predict ns cs (Prune t θ).1 pt = t.slot) := by
  constructor
  · intro h
    exact Predict_leaf ns cs t pt h
  · intro h
    rw [Predict_leaf ns cs (Prune t θ).1 pt h, Prune_slot]

theorem claim_C10_witness :
    ((Prune exTree 1).1.children = [] ∧
      Predict exSplitter exSplitter (Prune exTree 1).1 [0] = Slot.dim 0) := by
  have hch : (Prune exTree 1).1.children = [] := by
    rw [exTree_eq, Prune_fst]
    rw [pruneKids_all_removed _ ?_]
    · rfl
    · intro x hx
      rcases List.mem_cons.mp hx with h1 | h1
      · rw [h1]
        norm_num [allGainsB, allGainsList]
      · rcases List.mem_cons.mp h1 with h2 | h2
        · rw [h2]
          norm_num [allGainsB, allGainsList]
        · cases h2
  have hres := (claim_C10 exSplitter exSplitter exTree 1 [0]).2
    (by rw [exTree_eq] at hch ⊢; exact hch)
  refine ⟨hch, ?_⟩
  rw [exTree_eq] at hres ⊢
  rw [hres]
  rfl

end XGB
